import Mathlib

/-!
Verification of the token-indexed Aho-Corasick automaton of
`src/libyara/ahocorasick.c` against its natural-language specification.

The C source is shallowly embedded: every function of the file is translated
into an executable Lean definition over lists and natural numbers (machine
`int` values are modelled as `Int` where they may be negative, `Nat`
otherwise; pointers into the arena become indices into a `List` store).
External collaborators that are not part of `src/` (the arena allocator, the
regex engine's first-byte query, the `isregexhashable` / `isregexescapable`
tables and the `MASK_*` sentinel constants of `yara.h`) are modelled from the
specification's description of their interfaces; each such definition says so
in its doc comment.
-/

set_option maxRecDepth 16000

/-- MAX_TOKEN from ahocorasick.c (the spec's `T_MAX`). -/
def MAX_TOKEN : Nat := 4

/-- MAX_TABLE_BASED_STATES_DEPTH from ahocorasick.c (the spec's `D_MAX`). -/
def MAX_TABLE_BASED_STATES_DEPTH : Nat := 1

/-- One record of the token scratch buffer: `{length, backtrack, bytes}`.
The `length` field is the `int` written before the bytes; the generators keep
it equal to `bytes.length`. The terminating length-0 record of the C buffer
format is represented by the end of the Lean list (or by a record whose
`length` field is 0, as written by the hex generator in its degenerate case). -/
structure TokenRec where
  length : Nat
  backtrack : Int
  bytes : List Nat
deriving DecidableEq, Repr

/-- Test for an ASCII letter, as in `(c >= 'a' && c <= 'z') || (c >= 'A' && c <= 'Z')`. -/
def isLetter (c : Nat) : Bool := (97 ≤ c && c ≤ 122) || (65 ≤ c && c ≤ 90)

/-- Case swap from `_yr_ac_gen_case_combinations`: lower case loses 32,
anything else (only reached for upper-case letters) gains 32. -/
def toggleCase (c : Nat) : Nat := if 97 ≤ c && c ≤ 122 then c - 32 else c + 32

/-- Embedding of `_yr_ac_gen_case_combinations`.  The C function writes, for
a token and a start offset, every case variant of the token that differs from
it at some letter position `≥ off`, as full `{length, backtrack, bytes}`
records; it first recurses keeping position `off` unchanged, then (when the
byte at `off` is a letter) emits the copy with `off` toggled and recurses on
that copy. -/
def genCaseCombinations (token : List Nat) (off : Nat) (bt : Int) : List TokenRec :=
  let rest1 := if h : off + 1 < token.length then genCaseCombinations token (off + 1) bt else []
  let c := token.getD off 0
  if isLetter c then
    let t2 := token.set off (toggleCase c)
    rest1 ++ TokenRec.mk token.length bt t2 ::
      (if h : off + 1 < token.length then genCaseCombinations t2 (off + 1) bt else [])
  else rest1
termination_by token.length - off
decreasing_by
  · omega
  · simp only [List.length_set]; omega

/-- The full variant list `token :: genCaseCombinations token off bt` admits
this direct recursion; `caseVariants` is that recursion, used to reason about
the generator. -/
def caseVariants (token : List Nat) (off : Nat) : List (List Nat) :=
  if h : off + 1 < token.length then
    if isLetter (token.getD off 0) then
      caseVariants token (off + 1) ++
        caseVariants (token.set off (toggleCase (token.getD off 0))) (off + 1)
    else caseVariants token (off + 1)
  else
    if isLetter (token.getD off 0) then
      [token, token.set off (toggleCase (token.getD off 0))]
    else [token]
termination_by token.length - off
decreasing_by
  · omega
  · simp only [List.length_set]; omega
  · omega

/-- Structural enumeration of all case variants of a byte list: at each
letter position, keep the byte or toggle it. -/
def variantsOf : List Nat → List (List Nat)
  | [] => [[]]
  | c :: rest =>
    if isLetter c then
      (variantsOf rest).map (fun w => c :: w) ++
        (variantsOf rest).map (fun w => toggleCase c :: w)
    else (variantsOf rest).map (fun w => c :: w)

/-- The claim-side variant relation: `IsVar t v` holds when `v` is obtained
from `t` by independently toggling the case of some subset of `t`'s ASCII
letters. -/
def IsVar : List Nat → List Nat → Prop
  | [], [] => True
  | a :: t1, b :: v1 => (b = a ∨ (isLetter a = true ∧ b = toggleCase a)) ∧ IsVar t1 v1
  | _, _ => False

instance : ∀ t v, Decidable (IsVar t v)
  | [], [] => isTrue trivial
  | [], _ :: _ => isFalse id
  | _ :: _, [] => isFalse id
  | a :: t1, b :: v1 =>
    have : Decidable (IsVar t1 v1) := instDecidableIsVar t1 v1
    inferInstanceAs (Decidable (_ ∧ _))

/-- Mask stream alphabet of a hex string (the `STRING.mask` bytes read by
`_yr_ac_gen_hex_tokens`).  `0xFF` is a significant literal, any other
non-sentinel value is a wildcard; `MASK_EXACT_SKIP` is followed in the C
stream by its count byte, which is carried here inside the constructor. -/
inductive MaskElem where
  | literal
  | wildcard
  | maskOr
  | maskOrEnd
  | exactSkip (k : Nat)
  | rangeSkip
deriving DecidableEq, Repr

/-- Inner count of the `unique_bytes` double loop of `_yr_ac_gen_hex_tokens`:
number of positions, the final one excluded, whose byte does not reappear
later in the list. -/
def uniqueBytesAux : List Nat → Nat
  | [] => 0
  | [_] => 0
  | x :: y :: rest => (if x ∈ y :: rest then 0 else 1) + uniqueBytesAux (y :: rest)

/-- The `unique_bytes` value computed by `_yr_ac_gen_hex_tokens` for the
`last` window: it starts at 1 and adds one for every non-final position with
no later duplicate. -/
def uniqueBytes (l : List Nat) : Nat := 1 + uniqueBytesAux l

/-- The loop state of `_yr_ac_gen_hex_tokens` (its local variables). -/
structure HexSt where
  insideOr : Bool
  tokenLength : Nat
  backtrack : Int
  maxUnique : Nat
  candPos : Nat
  candLen : Nat
  candBack : Int
  orLen : Nat
  prevOrLen : Nat
  stringPos : Nat
  last : List Nat
deriving DecidableEq, Repr

/-- The `*mask == 0xFF && !inside_or` branch of `_yr_ac_gen_hex_tokens`:
grow the token, refresh the `last` window, recount unique bytes, and update
the candidate when the count beats the best so far or the token is longer
than the current candidate.  The second component is the early-exit flag
(the `break` when candidate length and unique count both reach the
maximum). -/
def hexLiteral (maxTok : Nat) (st : HexSt) (b : Nat) : HexSt × Bool :=
  let tl := min (st.tokenLength + 1) maxTok
  let lst := st.last.set (st.stringPos % maxTok) b
  let u := uniqueBytes lst
  if u > st.maxUnique || tl > st.candLen then
    ({ st with
        tokenLength := tl, last := lst, maxUnique := u,
        candPos := st.stringPos + 1 - tl,
        candBack := st.backtrack - (tl : Int) + 1,
        candLen := tl },
     tl == maxTok && u == maxTok)
  else
    ({ st with tokenLength := tl, last := lst }, false)

/-- The `while (*mask != MASK_END)` loop of `_yr_ac_gen_hex_tokens`; the end
of the mask list plays the role of `MASK_END`. -/
def hexLoop (s : List Nat) (maxTok : Nat) : List MaskElem → HexSt → HexSt
  | [], st => st
  | e :: rest, st =>
    let st := if st.tokenLength = 0 then
      { st with last := List.replicate maxTok (s.getD st.stringPos 0) } else st
    let st := if e = MaskElem.maskOr then { st with insideOr := true } else st
    let st := if e = MaskElem.maskOrEnd then { st with insideOr := false } else st
    let step :=
      if e = MaskElem.literal ∧ st.insideOr = false then
        hexLiteral maxTok st (s.getD st.stringPos 0)
      else ({ st with tokenLength := 0 }, false)
    if step.2 then step.1 else
    let st := step.1
    let st :=
      if e = MaskElem.literal ∨ e = MaskElem.wildcard then
        { st with
            stringPos := st.stringPos + 1,
            orLen := if st.insideOr then st.orLen + 1 else st.orLen,
            backtrack := if st.insideOr then st.backtrack else st.backtrack + 1 }
      else st
    match e with
    | MaskElem.exactSkip k => hexLoop s maxTok rest { st with backtrack := st.backtrack + k }
    | MaskElem.rangeSkip => st
    | MaskElem.maskOr =>
      let prev := if st.prevOrLen = 0 then st.orLen else st.prevOrLen
      if st.orLen ≠ prev then st
      else hexLoop s maxTok rest { st with orLen := 0, prevOrLen := prev }
    | MaskElem.maskOrEnd =>
      let prev := if st.prevOrLen = 0 then st.orLen else st.prevOrLen
      if st.orLen ≠ prev then st
      else hexLoop s maxTok rest
        { st with orLen := 0, prevOrLen := 0, backtrack := st.backtrack + prev }
    | _ => hexLoop s maxTok rest st

/-- Initial loop state of `_yr_ac_gen_hex_tokens` (the `last` array is stack
garbage in C but is always refilled before first use because `token_length`
starts at 0; it is initialised to zeros here). -/
def hexInit (maxTok : Nat) : HexSt :=
  ⟨false, 0, 0, 0, 0, 0, 0, 0, 0, 0, List.replicate maxTok 0⟩

/-- The YARA `STRING` record as read by ahocorasick.c.  The struct itself
lives in `yara.h`, outside `src/`; only the fields this file reads are
modelled, with `string->length` equal to `str.length`.  `reFirstBytes` is
modelled from the spec: `get_first_bytes(re, out_buf[256]) → count` returns
the distinct first bytes the regex may match, up to 256 of them. -/
structure YrString where
  hex : Bool
  regexp : Bool
  ascii : Bool
  wide : Bool
  nocase : Bool
  str : List Nat
  mask : List MaskElem
  reFirstBytes : List Nat
deriving DecidableEq, Repr

/-- Embedding of `_yr_ac_gen_hex_tokens`: run the scan loop, then emit the
single `{candidate_length, candidate_backtrack, candidate_bytes}` record. -/
def genHexTokens (s : YrString) (maxTok : Nat) : TokenRec :=
  let st := hexLoop s.str maxTok s.mask (hexInit maxTok)
  TokenRec.mk st.candLen st.candBack ((s.str.drop st.candPos).take st.candLen)

/-- Modelled from the spec: the `isregexhashable` table (declared outside
`src/`).  §4.1.3 only requires that hashable characters can be literal token
bytes; the spec's example B5 shows letters are hashable and regex
metacharacters are not, so the table is modelled as the alphanumerics. -/
def isRegexHashable (c : Nat) : Bool :=
  (48 ≤ c && c ≤ 57) || (65 ≤ c && c ≤ 90) || (97 ≤ c && c ≤ 122)

/-- Modelled from the spec: the `isregexescapable` table (declared outside
`src/`), the characters `x` for which `\x` contributes the literal `x`;
modelled as the regex metacharacters. -/
def isRegexEscapable (c : Nat) : Bool :=
  c ∈ [46, 42, 43, 63, 91, 93, 40, 41, 123, 125, 92, 94, 36, 124]

/-- The literal-accumulation loop of `_yr_ac_gen_regexp_tokens`; `fuel`
bounds the iteration count (each step advances `i` by 1 or 2 and the loop
requires `i < s.length`, so `s.length` steps suffice). -/
def regexAccum (s : List Nat) (maxTok : Nat) : Nat → Nat → List Nat → List Nat
  | 0, _, acc => acc
  | fuel + 1, i, acc =>
    if i < s.length ∧ acc.length < maxTok then
      let current := s.getD i 0
      let next := if s.length > i + 1 then s.getD (i + 1) 0 else 0
      if current = 92 ∧ isRegexEscapable next = true then
        regexAccum s maxTok fuel (i + 2) (acc ++ [next])
      else if isRegexHashable current = true ∧ next ≠ 42 ∧ next ≠ 123 ∧ next ≠ 63 then
        regexAccum s maxTok fuel (i + 1) (acc ++ [current])
      else acc
    else acc

/-- Embedding of `_yr_ac_gen_regexp_tokens`: accumulate leading literal
characters (skipping a leading `^`); if any were found emit them as one
token (plus case combinations when the string is case-insensitive),
otherwise emit one single-byte token per first byte of the regex. -/
def genRegexpTokens (s : YrString) (maxTok : Nat) : List TokenRec :=
  let start := if s.str.getD 0 0 = 94 then 1 else 0
  let tok := regexAccum s.str maxTok s.str.length start []
  if 0 < tok.length then
    TokenRec.mk tok.length 0 tok ::
      (if s.nocase then genCaseCombinations tok 0 0 else [])
  else
    s.reFirstBytes.map (fun b => TokenRec.mk 1 0 [b])

/-- The UTF-16LE expansion loop of `_yr_ac_gen_tokens`: even output
positions take the next input byte, odd positions are zero, stopping after
`n` output bytes. -/
def wideBytes (s : List Nat) (n : Nat) : List Nat :=
  (s.flatMap (fun b => [b, 0])).take n

/-- Embedding of `_yr_ac_gen_tokens`: dispatch on the string's flags and
emit the token records (the length-0 terminator of the C buffer is the end
of the list). -/
def genTokens (s : YrString) (maxTok : Nat) : List TokenRec :=
  if s.hex then [genHexTokens s maxTok]
  else if s.regexp then genRegexpTokens s maxTok
  else
    (if s.ascii then
      let tokenLength := min s.str.length maxTok
      let tok := s.str.take tokenLength
      TokenRec.mk tokenLength 0 tok ::
        (if s.nocase then genCaseCombinations tok 0 0 else [])
    else []) ++
    (if s.wide then
      let tokenLength := min (2 * s.str.length) maxTok
      let tok := wideBytes s.str tokenLength
      TokenRec.mk tokenLength 0 tok ::
        (if s.nocase then genCaseCombinations tok 0 0 else [])
    else [])

/-- An `AC_MATCH` output record: pattern back-reference plus the backtrack
distance (its `next` link is the position in the containing list). -/
structure AcMatch where
  stringId : Nat
  backtrack : Int
deriving DecidableEq, Repr

/-- The two transition representations of a state: `AC_TABLE_BASED_STATE`'s
256-entry table or `AC_LIST_BASED_STATE`'s linked list of
`{input, state, next}` records. -/
inductive AcTransitions where
  | table (t : Nat → Option Nat)
  | list (l : List (Nat × Nat))

/-- Common state header `{depth, failure, matches}` plus the transition
representation; `failure = none` models the unset (null) failure pointer.
The C field `matches` is a reserved word in Lean and is called `matchChain`
here. -/
structure AcState where
  depth : Nat
  failure : Option Nat
  matchChain : List AcMatch
  trans : AcTransitions

/-- Default used for reads through dangling indices (never reached on
well-formed automata). -/
def dState : AcState := ⟨0, none, [], AcTransitions.list []⟩

/-- The automaton: the arena's states addressed by index, plus the root
index. -/
structure Automaton where
  states : List AcState
  root : Nat

/-- Read a state from the store. -/
def getState (a : Automaton) (sid : Nat) : AcState :=
  a.states.getD sid dState

/-- Replace one state in the store. -/
def modifyState (a : Automaton) (sid : Nat) (f : AcState → AcState) : Automaton :=
  ⟨a.states.set sid (f (getState a sid)), a.root⟩

/-- Embedding of `yr_ac_next_state`: table lookup for states of depth
`≤ MAX_TABLE_BASED_STATES_DEPTH`, linear scan of the transition list
otherwise.  A representation that contradicts the depth (impossible on
states made by `_yr_ac_create_state`) reads as no transition. -/
def nextState (st : AcState) (input : Nat) : Option Nat :=
  if st.depth ≤ MAX_TABLE_BASED_STATES_DEPTH then
    match st.trans with
    | AcTransitions.table t => t input
    | AcTransitions.list _ => none
  else
    match st.trans with
    | AcTransitions.list l => (l.find? (fun p => p.1 == input)).map (fun p => p.2)
    | AcTransitions.table _ => none

/-- Whether a state carries the dense (table) representation. -/
def isTableBased (st : AcState) : Bool :=
  match st.trans with
  | AcTransitions.table _ => true
  | AcTransitions.list _ => false

/-- Embedding of `_yr_ac_create_state`: allocate the child with the dense
representation iff the parent's depth is `< MAX_TABLE_BASED_STATES_DEPTH`
(so the child's own depth is `≤` it), then install the edge through the
parent's representation and set the child's depth.  The arena's
`yr_arena_allocate_struct` is outside `src/`; modelled from the spec:
allocation returns zeroed storage, so the child starts with no matches, no
failure link and no transitions.  Returns the new automaton and the new
state's index.  `installEdge` is the edge-installation half: write the
table slot when the parent is dense, else prepend a transition record (a
parent whose representation contradicts its depth — impossible for states
this module builds — is left unchanged, where the C cast would corrupt
memory). -/
def installEdge (s : AcState) (input nid : Nat) : AcState :=
  if s.depth ≤ MAX_TABLE_BASED_STATES_DEPTH then
    match s.trans with
    | AcTransitions.table t =>
      { s with trans := AcTransitions.table (fun b => if b = input then some nid else t b) }
    | AcTransitions.list _ => s
  else
    match s.trans with
    | AcTransitions.list l =>
      { s with trans := AcTransitions.list ((input, nid) :: l) }
    | AcTransitions.table _ => s

/-- Allocation plus installation of `_yr_ac_create_state`, as documented on
`installEdge` above. -/
def createState (a : Automaton) (sid : Nat) (input : Nat) : Automaton × Nat :=
  let s := getState a sid
  let newState : AcState :=
    ⟨s.depth + 1, none, [],
      if s.depth < MAX_TABLE_BASED_STATES_DEPTH then AcTransitions.table (fun _ => none)
      else AcTransitions.list []⟩
  let nid := a.states.length
  (⟨(a.states ++ [newState]).set sid (installEdge s input nid), a.root⟩, nid)

/-- Embedding of `yr_ac_create_automaton`: a single dense root of depth 0
with empty matches (the arena zeroes the struct; the C code also sets
`depth = 0` and `matches = NULL` explicitly). -/
def createAutomaton : Automaton :=
  ⟨[⟨0, none, [], AcTransitions.table (fun _ => none)⟩], 0⟩

/-- The `(byte, child)` pairs enumerated by `_yr_ac_first_child` /
`_yr_ac_next_child`: table indices 0..255 in order for dense states, list
order for sparse states.  The C iterator discards the byte; it is kept here
because the corrected failure-link construction needs it. -/
def childPairs (st : AcState) : List (Nat × Nat) :=
  if st.depth ≤ MAX_TABLE_BASED_STATES_DEPTH then
    match st.trans with
    | AcTransitions.table t => (List.range 256).filterMap (fun b => (t b).map (fun x => (b, x)))
    | AcTransitions.list _ => []
  else
    match st.trans with
    | AcTransitions.list l => l
    | AcTransitions.table _ => []

/-- The children in iteration order, bytes dropped (what the C iterator
actually yields). -/
def childIds (st : AcState) : List Nat := (childPairs st).map (fun p => p.2)

/-- The token-walk loop of `yr_ac_add_string`: follow existing transitions,
creating missing states with `_yr_ac_create_state`; returns the automaton
and the terminal state. -/
def walkCreate : List Nat → Automaton → Nat → Automaton × Nat
  | [], a, sid => (a, sid)
  | b :: bs, a, sid =>
    match nextState (getState a sid) b with
    | some nxt => walkCreate bs a nxt
    | none =>
      let r := createState a sid b
      walkCreate bs r.1 r.2

/-- One iteration of `yr_ac_add_string`'s record loop: walk/extend the trie
along the token's bytes and prepend the output record
`{string, backtrack = terminal.depth + token_backtrack}` to the terminal
state's chain. -/
def insertToken (a : Automaton) (pid : Nat) (r : TokenRec) : Automaton :=
  let w := walkCreate r.bytes a a.root
  modifyState w.1 w.2 (fun st =>
    { st with matchChain := AcMatch.mk pid ((st.depth : Int) + r.backtrack) :: st.matchChain })

/-- The `while (token_length != 0)` loop of `yr_ac_add_string`, also folding
the running `min_token_length` (started at `MAX_TOKEN` by the caller). -/
def insertLoop (pid : Nat) : Automaton × Nat → List TokenRec → Automaton × Nat
  | (a, m), [] => (a, m)
  | (a, m), r :: rest =>
    if r.length = 0 then (a, m)
    else insertLoop pid (insertToken a pid r, min m r.length) rest

/-- The degenerate branch of `yr_ac_add_string`: attach the pattern itself
to the root with backtrack 0. -/
def attachRoot (a : Automaton) (pid : Nat) : Automaton :=
  modifyState a a.root (fun st => { st with matchChain := AcMatch.mk pid 0 :: st.matchChain })

/-- Embedding of `yr_ac_add_string`: generate the tokens, handle the
degenerate first-record-empty case, otherwise insert every token.  Returns
the automaton and the `min_token_length` out-parameter. -/
def addString (a : Automaton) (pid : Nat) (s : YrString) : Automaton × Nat :=
  let recs := genTokens s MAX_TOKEN
  match recs with
  | [] => (attachRoot a pid, 0)
  | r :: _ =>
    if r.length = 0 then (attachRoot a pid, 0)
    else insertLoop pid (a, MAX_TOKEN) recs

/-- A heap cell of the BFS queue (`QUEUE_NODE`); `yr_malloc` results are
modelled as indices into a growing list, and freed cells simply become
unreachable. -/
structure QNode where
  value : Nat
  prev : Option Nat
  next : Option Nat
deriving DecidableEq, Repr

/-- Default queue node for dangling reads. -/
def dQNode : QNode := ⟨0, none, none⟩

/-- The `QUEUE` head/tail pointer pair. -/
structure YrQueue where
  head : Option Nat
  tail : Option Nat
deriving DecidableEq, Repr

/-- Embedding of `_yr_ac_queue_push`: allocate a node whose `previous` is
the old tail, link it behind the tail (or make it the head when the queue
was empty), and make it the new tail. -/
def queuePush (h : List QNode) (q : YrQueue) (v : Nat) : List QNode × YrQueue :=
  let nid := h.length
  let node : QNode := ⟨v, q.tail, none⟩
  let h1 := h ++ [node]
  match q.tail with
  | some t => (h1.set t { h1.getD t dQNode with next := some nid }, ⟨q.head, some nid⟩)
  | none => (h1, ⟨some nid, some nid⟩)

/-- Embedding of `_yr_ac_queue_pop`: return null on an empty queue,
otherwise unlink the head node (clearing the new head's `previous`, or the
tail when the queue empties) and return its value. -/
def queuePop (h : List QNode) (q : YrQueue) : List QNode × YrQueue × Option Nat :=
  match q.head with
  | none => (h, q, none)
  | some hd =>
    let n := h.getD hd dQNode
    let h1 :=
      match n.next with
      | some h2 => h.set h2 { h.getD h2 dQNode with prev := none }
      | none => h
    let q1 : YrQueue := ⟨n.next, match n.next with | some _ => q.tail | none => none⟩
    (h1, q1, some n.value)

/-- Embedding of `_yr_ac_queue_is_empty`: the head pointer is null. -/
def queueIsEmpty (q : YrQueue) : Bool := q.head.isNone

/-- A queue operation, for stating the queue's behaviour over arbitrary
interleavings. -/
inductive QOp where
  | push (v : Nat)
  | pop
deriving DecidableEq, Repr

/-- Run a sequence of operations against the pointer-based queue, returning
the values popped (in order) and the final heap and queue. -/
def runQueue : List QOp → List QNode → YrQueue → List (Option Nat) × (List QNode × YrQueue)
  | [], h, q => ([], (h, q))
  | QOp.push v :: ops, h, q =>
    let r := queuePush h q v
    runQueue ops r.1 r.2
  | QOp.pop :: ops, h, q =>
    let r := queuePop h q
    let rest := runQueue ops r.1 r.2.1
    (r.2.2 :: rest.1, rest.2)

/-- The claim-side model: a FIFO queue as a plain list, pushes appended at
the back, pops taken from the front (null when empty). -/
def runFifo : List QOp → List Nat → List (Option Nat) × List Nat
  | [], l => ([], l)
  | QOp.push v :: ops, l => runFifo ops (l ++ [v])
  | QOp.pop :: ops, [] =>
    let r := runFifo ops []
    (none :: r.1, r.2)
  | QOp.pop :: ops, x :: xs =>
    let r := runFifo ops xs
    (some x :: r.1, r.2)

/-- The tail walk of `yr_ac_create_failure_links` over a non-empty chain:
go to the last record and, when its backtrack is positive, hang the root's
chain off its `next` pointer. -/
def cflAdjustTail : List AcMatch → List AcMatch → List AcMatch
  | [], _ => []
  | [m], rootM => if 0 < m.backtrack then m :: rootM else [m]
  | m :: m2 :: rest, rootM => m :: cflAdjustTail (m2 :: rest) rootM

/-- The root-output propagation performed on every dequeued state in
`yr_ac_create_failure_links` (lines 824-837): an empty chain inherits the
root's chain, otherwise the tail walk above runs. -/
def cflAdjust (own rootM : List AcMatch) : List AcMatch :=
  match own with
  | [] => rootM
  | m :: rest => cflAdjustTail (m :: rest) rootM

/-- Set a state's failure pointer. -/
def setFailureAt (a : Automaton) (sid fid : Nat) : Automaton :=
  modifyState a sid (fun st => { st with failure := some fid })

/-- Overwrite a state's output chain. -/
def setMatchesAt (a : Automaton) (sid : Nat) (ms : List AcMatch) : Automaton :=
  modifyState a sid (fun st => { st with matchChain := ms })

/-- The `while (1)` failure-chain walk of `yr_ac_create_failure_links` for
one child `t`: probe `next_state(failure_state, probe)`; on a hit set `t`'s
failure there and append the target's matches to `t`'s chain (or adopt them
when `t` has none); at the root give up and point `t` at the root; otherwise
climb the failure chain.  In the C code `probe` is the *uninitialised*
variable `i`; the corrected construction passes the edge byte instead.
`fuel` bounds the climb (the chain is finite on well-formed automata). -/
def innerLink (probe : Nat) : Nat → Automaton → Nat → Nat → Automaton
  | 0, a, _, _ => a
  | fuel + 1, a, fs, t =>
    match nextState (getState a fs) probe with
    | some temp =>
      let a1 := setFailureAt a t temp
      let tm := (getState a1 temp).matchChain
      setMatchesAt a1 t
        (if (getState a1 t).matchChain = [] then tm else (getState a1 t).matchChain ++ tm)
    | none =>
      if fs = a.root then setFailureAt a t a.root
      else innerLink probe fuel a ((getState a fs).failure.getD a.root) t

/-- One dequeue iteration of the BFS loop of `yr_ac_create_failure_links`
as written (the probe byte for every child is the single uninitialised
value `iv`): adjust the dequeued state's chain against the root's outputs,
then run the failure-chain walk for every child.  Returns the new automaton
and the children pushed. -/
def cflStep (iv : Nat) (a : Automaton) (s : Nat) : Automaton × List Nat :=
  let a := setMatchesAt a s
    (cflAdjust (getState a s).matchChain (getState a a.root).matchChain)
  let kids := childIds (getState a s)
  (kids.foldl
    (fun acc t => innerLink iv (acc.states.length + 1) acc
      ((getState acc s).failure.getD acc.root) t) a, kids)

/-- The BFS loop of `yr_ac_create_failure_links` exactly as written.
Returns the automaton and, as a ghost output, the dequeue (visit) order.
The pointer queue is modelled by a list; `runQueue`/`runFifo` below
establish that this is the behaviour of the C queue. -/
def cflLoopBuggy (iv : Nat) : Nat → Automaton → List Nat → Automaton × List Nat
  | 0, a, _ => (a, [])
  | _ + 1, a, [] => (a, [])
  | fuel + 1, a, s :: rest =>
    let p := cflStep iv a s
    let r := cflLoopBuggy iv fuel p.1 (rest ++ p.2)
    (r.1, s :: r.2)

/-- Embedding of `yr_ac_create_failure_links` as written (probing with the
uninitialised value `iv`): point the root at itself, point its children at
it and enqueue them, then run the BFS loop. -/
def createFailureLinksBuggy (iv : Nat) (a : Automaton) : Automaton × List Nat :=
  let a := setFailureAt a a.root a.root
  let kids := childIds (getState a a.root)
  let a := kids.foldl (fun acc c => setFailureAt acc c acc.root) a
  cflLoopBuggy iv (a.states.length + 1) a kids

/-- One dequeue iteration with the fix the spec describes (§9): probe with
the byte labelling the edge to each child. -/
def cflStepFixed (a : Automaton) (s : Nat) : Automaton × List Nat :=
  let a := setMatchesAt a s
    (cflAdjust (getState a s).matchChain (getState a a.root).matchChain)
  let kids := childPairs (getState a s)
  (kids.foldl
    (fun acc bt => innerLink bt.1 (acc.states.length + 1) acc
      ((getState acc s).failure.getD acc.root) bt.2) a, kids.map (fun p => p.2))

/-- The BFS loop with the corrected probe byte. -/
def cflLoopFixed : Nat → Automaton → List Nat → Automaton × List Nat
  | 0, a, _ => (a, [])
  | _ + 1, a, [] => (a, [])
  | fuel + 1, a, s :: rest =>
    let p := cflStepFixed a s
    let r := cflLoopFixed fuel p.1 (rest ++ p.2)
    (r.1, s :: r.2)

/-- `yr_ac_create_failure_links` with the corrected probe byte. -/
def createFailureLinksFixed (a : Automaton) : Automaton × List Nat :=
  let a := setFailureAt a a.root a.root
  let kids := childIds (getState a a.root)
  let a := kids.foldl (fun acc c => setFailureAt acc c acc.root) a
  cflLoopFixed (a.states.length + 1) a kids

/-- A plain ASCII text pattern (flags `ASCII` only), as used by the spec's
end-to-end scenario E1. -/
def asciiPattern (bytes : List Nat) : YrString :=
  ⟨false, false, true, false, false, bytes, [], []⟩

/-- Follow existing transitions only (no creation), from a given state. -/
def stateAtFrom (a : Automaton) : Nat → List Nat → Option Nat
  | sid, [] => some sid
  | sid, b :: bs =>
    match nextState (getState a sid) b with
    | some n => stateAtFrom a n bs
    | none => none

/-- The state reached from the root on a byte string, if present. -/
def stateAt (a : Automaton) (bs : List Nat) : Option Nat :=
  stateAtFrom a a.root bs

/-- The automaton for the spec's E1 pattern set {she, he, his, hers}, built
by four `yr_ac_add_string` calls on an empty automaton. -/
def demoAuto : Automaton :=
  (addString
    (addString
      (addString
        (addString createAutomaton 0 (asciiPattern [115, 104, 101])).1
        1 (asciiPattern [104, 101])).1
      2 (asciiPattern [104, 105, 115])).1
    3 (asciiPattern [104, 101, 114, 115])).1

/-- The transition targets a state stores (table entries or list targets). -/
def transTargets (st : AcState) : List Nat :=
  match st.trans with
  | AcTransitions.table t => (List.range 256).filterMap t
  | AcTransitions.list l => l.map (fun p => p.2)

/-- Well-formed store: the root index and every stored transition target
are in range. -/
def WF (a : Automaton) : Prop :=
  a.root < a.states.length ∧
    ∀ st ∈ a.states, ∀ x ∈ transTargets st, x < a.states.length

/-- A state's representation agrees with its depth (dense iff
`depth ≤ MAX_TABLE_BASED_STATES_DEPTH`), as `_yr_ac_create_state`
guarantees. -/
def ReprOk (st : AcState) : Prop :=
  isTableBased st = true ↔ st.depth ≤ MAX_TABLE_BASED_STATES_DEPTH

/-- Every stored child is one level deeper than its parent (spec invariant
I1, guaranteed by construction). -/
def DepthOk (a : Automaton) : Prop :=
  ∀ sid < a.states.length, ∀ c ∈ childIds (getState a sid),
    (getState a c).depth = (getState a sid).depth + 1

/-- Number of distinct bytes of a list (the spec's "distinct bytes"). -/
def distinctCount (l : List Nat) : Nat := l.dedup.length

/-- Claim-side eligibility for hex tokens on masks without alternations: a
window of `len` consecutive mask positions starting at `p` that are all
significant literals. -/
def LiteralRun (m : List MaskElem) (p len : Nat) : Prop :=
  0 < len ∧ ∀ k < len, m.getD (p + k) MaskElem.rangeSkip = MaskElem.literal

/-- A mask with no alternation markers (so "not inside an alternation" holds
everywhere). -/
def NoAlternation (m : List MaskElem) : Prop :=
  ∀ e ∈ m, e ≠ MaskElem.maskOr ∧ e ≠ MaskElem.maskOrEnd

/-- `sizeof(int)` on the platforms yara targets. -/
def intSize : Nat := 4

/-- Bytes one `{length, backtrack, bytes}` record occupies in the scratch
buffer. -/
def recordBytes (r : TokenRec) : Nat := 2 * intSize + r.bytes.length

/-- Total bytes the token generator writes: every record plus the length-0
terminator int. -/
def totalBytes (rs : List TokenRec) : Nat :=
  rs.foldl (fun acc r => acc + recordBytes r) 0 + intSize

/-- The scratch allocation of `yr_ac_add_string`:
`2 * (1 << MAX_TOKEN) * (2 * sizeof(int) + MAX_TOKEN) + sizeof(int)`. -/
def tokensBufSize : Nat := 2 * (2 ^ MAX_TOKEN) * (2 * intSize + MAX_TOKEN) + intSize

/-- Number of ASCII letters in a byte list. -/
def letterCount (l : List Nat) : Nat := l.countP (fun c => isLetter c)

/-- The hex pattern `98 56 ?? ?? 00 00 00 00 34 EB 45 97 21` of the spec's
boundary test B1. -/
def c2Str : YrString :=
  ⟨true, false, false, false, false,
    [0x98, 0x56, 0, 0, 0, 0, 0, 0, 0x34, 0xEB, 0x45, 0x97, 0x21],
    [MaskElem.literal, MaskElem.literal, MaskElem.wildcard, MaskElem.wildcard,
     MaskElem.literal, MaskElem.literal, MaskElem.literal, MaskElem.literal,
     MaskElem.literal, MaskElem.literal, MaskElem.literal, MaskElem.literal,
     MaskElem.literal], []⟩

/-- The hex pattern `AB CD ?? 00 00 00`: the literal pair `AB CD` has two
distinct bytes, the final run only one. -/
def c3Str : YrString :=
  ⟨true, false, false, false, false,
    [0xAB, 0xCD, 0, 0, 0, 0],
    [MaskElem.literal, MaskElem.literal, MaskElem.wildcard,
     MaskElem.literal, MaskElem.literal, MaskElem.literal], []⟩

/-- A regex pattern that accumulates no literal (its first character `.` is
not hashable) and whose first-byte set is full (e.g. `.`, which matches any
byte): the worst case for the scratch buffer. -/
def c9Str : YrString :=
  ⟨false, true, false, false, false, [46], [], List.range 256⟩

/-- The ASCII nocase pattern `"Hi"` of the spec's boundary test B3. -/
def hiStr : YrString :=
  ⟨false, false, true, false, true, [72, 105], [], []⟩

instance (m : List MaskElem) (p len : Nat) : Decidable (LiteralRun m p len) := by
  unfold LiteralRun; infer_instance

instance (m : List MaskElem) : Decidable (NoAlternation m) := by
  unfold NoAlternation; infer_instance

instance (a : Automaton) : Decidable (WF a) := by
  unfold WF; infer_instance

instance (st : AcState) : Decidable (ReprOk st) := by
  unfold ReprOk; infer_instance

instance (a : Automaton) : Decidable (DepthOk a) := by
  unfold DepthOk; infer_instance

/-- `chainToB h o ids o2`: following `next` pointers from `o` through the
heap `h` visits exactly the nodes `ids` (all in range) and ends on the
pointer `o2`. -/
def chainToB (h : List QNode) : Option Nat → List Nat → Option Nat → Bool
  | o, [], o2 => o == o2
  | some i, j :: rest, o2 =>
    (i == j) && decide (i < h.length) && chainToB h (h.getD i dQNode).next rest o2
  | none, _ :: _, _ => false

/-- The values stored at a list of heap indices. -/
def absVals (h : List QNode) (ids : List Nat) : List Nat :=
  ids.map (fun i => (h.getD i dQNode).value)

/-- Queue representation invariant: the head pointer chains through exactly
`ids` and ends null, the tail pointer is the last of `ids`, and no node is
visited twice. -/
def QInv (h : List QNode) (q : YrQueue) (ids : List Nat) : Prop :=
  chainToB h q.head ids none = true ∧ q.tail = ids.getLast? ∧ ids.Nodup

theorem listGetDSetSelf {α : Type} (d x : α) :
    ∀ (l : List α) (i : Nat), i < l.length → (l.set i x).getD i d = x := by
  intro l
  induction l with
  | nil => intro i h; simp at h
  | cons a t ih =>
    intro i h
    cases i with
    | zero => rfl
    | succ j => simpa using ih j (by simpa using h)

theorem listGetDSetNe {α : Type} (d x : α) :
    ∀ (l : List α) (i j : Nat), i ≠ j → (l.set i x).getD j d = l.getD j d := by
  intro l
  induction l with
  | nil => intro i j _; simp [List.set]
  | cons a t ih =>
    intro i j hij
    cases i with
    | zero =>
      cases j with
      | zero => exact absurd rfl hij
      | succ m => simp
    | succ n =>
      cases j with
      | zero => simp
      | succ m => simpa using ih n m (by omega)

theorem listGetDAppendLeft {α : Type} (d : α) :
    ∀ (l m : List α) (i : Nat), i < l.length → (l ++ m).getD i d = l.getD i d := by
  intro l
  induction l with
  | nil => intro m i h; simp at h
  | cons a t ih =>
    intro m i h
    cases i with
    | zero => rfl
    | succ j => simpa using ih m j (by simpa using h)

theorem listGetDAppendLen {α : Type} (d x : α) :
    ∀ l : List α, (l ++ [x]).getD l.length d = x := by
  intro l
  induction l with
  | nil => rfl
  | cons a t ih => simpa using ih

theorem listGetDGe {α : Type} (d : α) :
    ∀ (l : List α) (i : Nat), l.length ≤ i → l.getD i d = d := by
  intro l
  induction l with
  | nil => intro i _; simp [List.getD]
  | cons a t ih =>
    intro i h
    cases i with
    | zero => simp at h
    | succ j => simpa using ih j (by simpa using h)

theorem getState_modify_self (a : Automaton) (sid : Nat) (f : AcState → AcState)
    (h : sid < a.states.length) :
    getState (modifyState a sid f) sid = f (getState a sid) :=
  listGetDSetSelf dState (f (getState a sid)) a.states sid h

theorem getState_modify_ne (a : Automaton) (sid u : Nat) (f : AcState → AcState)
    (h : sid ≠ u) : getState (modifyState a sid f) u = getState a u :=
  listGetDSetNe dState (f (getState a sid)) a.states sid u h

theorem modify_length (a : Automaton) (sid : Nat) (f : AcState → AcState) :
    (modifyState a sid f).states.length = a.states.length := by
  simp [modifyState]

theorem modify_root (a : Automaton) (sid : Nat) (f : AcState → AcState) :
    (modifyState a sid f).root = a.root := rfl

theorem uniqueBytes_eq_distinct : ∀ l : List Nat, l ≠ [] → uniqueBytes l = distinctCount l := by
  intro l
  induction l with
  | nil => intro h; exact absurd rfl h
  | cons x xs ih =>
    intro _
    cases xs with
    | nil => rfl
    | cons y rest =>
      have hne : (y :: rest) ≠ [] := by simp
      by_cases hx : x ∈ y :: rest
      · have : uniqueBytes (x :: y :: rest) = uniqueBytes (y :: rest) := by
          simp [uniqueBytes, uniqueBytesAux, hx]
        rw [this, ih hne]
        simp [distinctCount, List.dedup_cons_of_mem hx]
      · have : uniqueBytes (x :: y :: rest) = 1 + uniqueBytes (y :: rest) := by
          simp only [uniqueBytes, uniqueBytesAux, if_neg hx]
        rw [this, ih hne]
        simp [distinctCount, List.dedup_cons_of_not_mem hx]; omega

theorem cflAdjustTail_eq :
    ∀ (rest : List AcMatch) (m : AcMatch) (rootM : List AcMatch),
      cflAdjustTail (m :: rest) rootM =
        if 0 < ((m :: rest).getLast (by simp)).backtrack
        then (m :: rest) ++ rootM else m :: rest := by
  intro rest
  induction rest with
  | nil =>
    intro m rootM
    simp [cflAdjustTail]
  | cons m2 rest2 ih =>
    intro m rootM
    have hlast : ((m :: m2 :: rest2).getLast (by simp)) =
        ((m2 :: rest2).getLast (by simp)) := List.getLast_cons (by simp)
    rw [cflAdjustTail, ih m2 rootM, hlast]
    by_cases hb : 0 < ((m2 :: rest2).getLast (by simp)).backtrack
    · simp [hb]
    · simp [hb]

/-- C6: during failure-link construction every dequeued state's chain is
adjusted against the root's outputs: an empty chain is replaced by the
root's chain, a chain whose final record has positive backtrack gets the
root's matches appended at its tail, and any other chain is left as it is. -/
theorem cfl_root_output_rule (own rootM : List AcMatch) :
    (own = [] → cflAdjust own rootM = rootM) ∧
    (∀ h : own ≠ [], 0 < (own.getLast h).backtrack →
      cflAdjust own rootM = own ++ rootM) ∧
    (∀ h : own ≠ [], ¬ 0 < (own.getLast h).backtrack →
      cflAdjust own rootM = own) := by
  refine ⟨fun h => by subst h; rfl, ?_, ?_⟩
  · intro h hb
    cases own with
    | nil => exact absurd rfl h
    | cons m rest =>
      rw [cflAdjust, cflAdjustTail_eq rest m rootM]
      simp [hb]
  · intro h hb
    cases own with
    | nil => exact absurd rfl h
    | cons m rest =>
      rw [cflAdjust, cflAdjustTail_eq rest m rootM]
      simp [hb]

theorem cfl_root_output_rule_witness :
    cflAdjust [] [AcMatch.mk 9 0] = [AcMatch.mk 9 0] ∧
    cflAdjust [AcMatch.mk 0 2] [AcMatch.mk 9 0] = [AcMatch.mk 0 2, AcMatch.mk 9 0] ∧
    cflAdjust [AcMatch.mk 0 0] [AcMatch.mk 9 0] = [AcMatch.mk 0 0] := by
  refine ⟨(cfl_root_output_rule [] [AcMatch.mk 9 0]).1 rfl, ?_, ?_⟩
  · have h := (cfl_root_output_rule [AcMatch.mk 0 2] [AcMatch.mk 9 0]).2.1
      (by simp) (by decide)
    simpa using h
  · have h := (cfl_root_output_rule [AcMatch.mk 0 0] [AcMatch.mk 9 0]).2.2
      (by simp) (by decide)
    simpa using h

/-- C2: on the hex pattern `98 56 ?? ?? 00 00 00 00 34 EB 45 97 21` with
maximum token length 4, the generator emits exactly one record, but that
record is `{length 4, backtrack 7, bytes 00 34 EB 45}` — the early exit
fires one position before the `34 EB 45 97` / backtrack 8 that the claim
(and the function's own comment) promises. -/
theorem hex_token_b1_diverges :
    genTokens c2Str MAX_TOKEN = [TokenRec.mk 4 7 [0x00, 0x34, 0xEB, 0x45]] ∧
    genHexTokens c2Str MAX_TOKEN ≠ TokenRec.mk 4 8 [0x34, 0xEB, 0x45, 0x97] := by
  decide

/-- C3 (counterexample): on `AB CD ?? 00 00 00` the generator returns the
run `00 00 00` with one distinct byte even though the eligible literal
window `AB CD` has two, so the emitted token does not maximise the
distinct-byte count. -/
theorem hex_token_not_max_distinct :
    genTokens c3Str MAX_TOKEN = [TokenRec.mk 3 3 [0, 0, 0]] ∧
    NoAlternation c3Str.mask ∧
    LiteralRun c3Str.mask 0 2 ∧
    c3Str.str.take 2 = [0xAB, 0xCD] ∧ 2 ≤ MAX_TOKEN ∧
    distinctCount (c3Str.str.take 2) = 2 ∧
    distinctCount (genHexTokens c3Str MAX_TOKEN).bytes = 1 := by
  decide

/-- C3 (amended): the candidate is replaced exactly when the refreshed
window has strictly more distinct bytes than the best recorded count or the
grown token is strictly longer than the stored candidate (so a longer but
less distinct run may displace a more distinct candidate), and the scan
stops early exactly when such an update leaves both the candidate length
and its distinct-byte count equal to the maximum token length. -/
theorem hex_candidate_update_rule (maxTok : Nat) (st : HexSt) (b : Nat)
    (hlast : st.last ≠ []) :
    (distinctCount (st.last.set (st.stringPos % maxTok) b) > st.maxUnique ∨
        min (st.tokenLength + 1) maxTok > st.candLen →
      (hexLiteral maxTok st b).1.candLen = min (st.tokenLength + 1) maxTok ∧
      (hexLiteral maxTok st b).1.candPos = st.stringPos + 1 - min (st.tokenLength + 1) maxTok ∧
      (hexLiteral maxTok st b).1.candBack =
        st.backtrack - Int.ofNat (min (st.tokenLength + 1) maxTok) + 1 ∧
      (hexLiteral maxTok st b).1.maxUnique =
        distinctCount (st.last.set (st.stringPos % maxTok) b)) ∧
    (¬(distinctCount (st.last.set (st.stringPos % maxTok) b) > st.maxUnique ∨
        min (st.tokenLength + 1) maxTok > st.candLen) →
      (hexLiteral maxTok st b).1.candLen = st.candLen ∧
      (hexLiteral maxTok st b).1.candPos = st.candPos ∧
      (hexLiteral maxTok st b).1.candBack = st.candBack ∧
      (hexLiteral maxTok st b).1.maxUnique = st.maxUnique) ∧
    ((hexLiteral maxTok st b).2 = true ↔
      (distinctCount (st.last.set (st.stringPos % maxTok) b) > st.maxUnique ∨
        min (st.tokenLength + 1) maxTok > st.candLen) ∧
      min (st.tokenLength + 1) maxTok = maxTok ∧
      distinctCount (st.last.set (st.stringPos % maxTok) b) = maxTok) := by
  have hw : st.last.set (st.stringPos % maxTok) b ≠ [] := by
    cases hl : st.last with
    | nil => exact absurd hl hlast
    | cons p q => cases hm : st.stringPos % maxTok <;> simp [List.set]
  have hu : uniqueBytes (st.last.set (st.stringPos % maxTok) b) =
      distinctCount (st.last.set (st.stringPos % maxTok) b) :=
    uniqueBytes_eq_distinct _ hw
  constructor
  · intro hcond
    simp only [hexLiteral, hu]
    rw [if_pos (by simpa [hu] using hcond)]
    exact ⟨rfl, rfl, rfl, rfl⟩
  · constructor
    · intro hcond
      simp only [hexLiteral, hu]
      rw [if_neg (by simpa [hu] using hcond)]
      exact ⟨rfl, rfl, rfl, rfl⟩
    · by_cases hcond : distinctCount (st.last.set (st.stringPos % maxTok) b) > st.maxUnique ∨
        min (st.tokenLength + 1) maxTok > st.candLen
      · simp only [hexLiteral, hu]
        rw [if_pos (by simpa [hu] using hcond)]
        show (min (st.tokenLength + 1) maxTok == maxTok &&
            distinctCount (st.last.set (st.stringPos % maxTok) b) == maxTok) = true ↔ _
        simp only [Bool.and_eq_true, beq_iff_eq]
        constructor
        · intro hb
          exact ⟨hcond, hb.1, hb.2⟩
        · intro hb
          exact ⟨hb.2.1, hb.2.2⟩
      · simp only [hexLiteral, hu]
        rw [if_neg (by simpa [hu] using hcond)]
        show (false = true) ↔ _
        constructor
        · intro hb
          exact absurd hb (by simp)
        · intro hb
          exact absurd hb.1 hcond

theorem hex_candidate_update_rule_witness :
    (hexLiteral 4 ⟨false, 1, 1, 1, 0, 1, 0, 0, 0, 1, [5, 5, 5, 5]⟩ 7).1.candLen =
      min (1 + 1) 4 ∧
    (hexLiteral 4 ⟨false, 1, 1, 1, 0, 1, 0, 0, 0, 1, [5, 5, 5, 5]⟩ 7).1.candPos =
      1 + 1 - min (1 + 1) 4 ∧
    (hexLiteral 4 ⟨false, 1, 1, 1, 0, 1, 0, 0, 0, 1, [5, 5, 5, 5]⟩ 7).1.candBack =
      (1 : Int) - Int.ofNat (min (1 + 1) 4) + 1 ∧
    (hexLiteral 4 ⟨false, 1, 1, 1, 0, 1, 0, 0, 0, 1, [5, 5, 5, 5]⟩ 7).1.maxUnique =
      distinctCount (([5, 5, 5, 5] : List Nat).set (1 % 4) 7) := by
  exact (hex_candidate_update_rule 4 ⟨false, 1, 1, 1, 0, 1, 0, 0, 0, 1, [5, 5, 5, 5]⟩ 7
    (by decide)).1 (by decide)

/-- C9: the scratch buffer of `yr_ac_add_string` holds 388 bytes, but a
regex with no extractable literal and a full 256-byte first-byte set makes
the generator write 2308 bytes (256 nine-byte records plus the terminator):
the allocation is not the worst case and the writes run past the buffer. -/
theorem scratch_buffer_overflow :
    tokensBufSize = 388 ∧
    totalBytes (genTokens c9Str MAX_TOKEN) = 2308 ∧
    tokensBufSize < totalBytes (genTokens c9Str MAX_TOKEN) := by
  decide

/-- C8: a successful `_yr_ac_create_state(s, b)` on a state with no
transition on `b` yields a fresh state `n` with `next_state(s, b) = n`
afterwards, `n.depth = s.depth + 1`, an empty output chain, the dense
representation exactly when `n.depth ≤ MAX_TABLE_BASED_STATES_DEPTH`, and
every other transition of `s` unchanged. -/
theorem create_child_spec (a : Automaton) (sid b : Nat)
    (hs : sid < a.states.length) (hrep : ReprOk (getState a sid))
    (hnone : nextState (getState a sid) b = none) :
    nextState (getState (createState a sid b).1 sid) b = some (createState a sid b).2 ∧
    (getState (createState a sid b).1 (createState a sid b).2).depth =
      (getState a sid).depth + 1 ∧
    (getState (createState a sid b).1 (createState a sid b).2).matchChain = [] ∧
    (isTableBased (getState (createState a sid b).1 (createState a sid b).2) = true ↔
      (getState (createState a sid b).1 (createState a sid b).2).depth ≤
        MAX_TABLE_BASED_STATES_DEPTH) ∧
    (∀ b2, b2 ≠ b →
      nextState (getState (createState a sid b).1 sid) b2 = nextState (getState a sid) b2) := by
  have hnid : (createState a sid b).2 = a.states.length := rfl
  have hget_sid : getState (createState a sid b).1 sid =
      installEdge (getState a sid) b a.states.length := by
    show ((a.states ++ [_]).set sid _).getD sid dState = _
    exact listGetDSetSelf _ _ _ _ (by simp [List.length_append]; omega)
  have hget_nid : getState (createState a sid b).1 (createState a sid b).2 =
      ⟨(getState a sid).depth + 1, none, [],
        if (getState a sid).depth < MAX_TABLE_BASED_STATES_DEPTH
        then AcTransitions.table (fun _ => none) else AcTransitions.list []⟩ := by
    show ((a.states ++ [_]).set sid _).getD a.states.length dState = _
    rw [listGetDSetNe _ _ _ _ _ (Nat.ne_of_lt hs)]
    exact listGetDAppendLen _ _ _
  refine ⟨?_, ?_, ?_, ?_, ?_⟩
  · rw [hget_sid, hnid]
    by_cases hd : (getState a sid).depth ≤ MAX_TABLE_BASED_STATES_DEPTH
    · rcases htr : (getState a sid).trans with t | l
      · simp [installEdge, nextState, hd, htr]
      · exact absurd (hrep.mpr hd) (by simp [isTableBased, htr])
    · rcases htr : (getState a sid).trans with t | l
      · exact absurd (hrep.mp (by simp [isTableBased, htr])) hd
      · have hfind : ((b, a.states.length) :: l).find? (fun p => p.1 == b) =
            some (b, a.states.length) := List.find?_cons_of_pos _ (by simp)
        simp [installEdge, nextState, hd, htr, hfind]
  · rw [hget_nid]
  · rw [hget_nid]
  · rw [hget_nid]
    by_cases hd0 : (getState a sid).depth < MAX_TABLE_BASED_STATES_DEPTH
    · simp only [if_pos hd0, isTableBased]
      simp only [MAX_TABLE_BASED_STATES_DEPTH] at hd0 ⊢
      constructor
      · intro _; omega
      · intro _; trivial
    · simp only [if_neg hd0, isTableBased]
      simp only [MAX_TABLE_BASED_STATES_DEPTH] at hd0 ⊢
      constructor
      · intro hfalse; exact absurd hfalse (by simp)
      · intro hle; omega
  · intro b2 hb2
    rw [hget_sid]
    by_cases hd : (getState a sid).depth ≤ MAX_TABLE_BASED_STATES_DEPTH
    · rcases htr : (getState a sid).trans with t | l
      · simp [installEdge, nextState, hd, htr, hb2]
      · exact absurd (hrep.mpr hd) (by simp [isTableBased, htr])
    · rcases htr : (getState a sid).trans with t | l
      · exact absurd (hrep.mp (by simp [isTableBased, htr])) hd
      · have hb : (b == b2) = false := by
          simp only [beq_eq_false_iff_ne]
          exact fun h => hb2 h.symm
        have heq : List.find? (fun p : Nat × Nat => p.1 == b2) ((b, a.states.length) :: l) =
            List.find? (fun p : Nat × Nat => p.1 == b2) l := by
          simp [List.find?, hb]
        simp only [installEdge, nextState, if_neg hd, htr]
        rw [heq]

theorem create_child_spec_witness :
    nextState (getState (createState createAutomaton 0 97).1 0) 97 =
      some (createState createAutomaton 0 97).2 ∧
    (getState (createState createAutomaton 0 97).1 (createState createAutomaton 0 97).2).depth =
      (getState createAutomaton 0).depth + 1 ∧
    (getState (createState createAutomaton 0 97).1
      (createState createAutomaton 0 97).2).matchChain = [] ∧
    (isTableBased (getState (createState createAutomaton 0 97).1
        (createState createAutomaton 0 97).2) = true ↔
      (getState (createState createAutomaton 0 97).1
        (createState createAutomaton 0 97).2).depth ≤ MAX_TABLE_BASED_STATES_DEPTH) ∧
    nextState (getState (createState createAutomaton 0 97).1 0) 98 =
      nextState (getState createAutomaton 0) 98 := by
  have h := create_child_spec createAutomaton 0 97 (by decide) (by decide) rfl
  exact ⟨h.1, h.2.1, h.2.2.1, h.2.2.2.1, h.2.2.2.2 98 (by decide)⟩

theorem chainToB_mem_lt (h : List QNode) :
    ∀ (ids : List Nat) (o o2 : Option Nat), chainToB h o ids o2 = true →
      ∀ i ∈ ids, i < h.length := by
  intro ids
  induction ids with
  | nil => intro o o2 _ i hi; simp at hi
  | cons j rest ih =>
    intro o o2 hch i hi
    cases o with
    | none => simp [chainToB] at hch
    | some k =>
      simp only [chainToB, Bool.and_eq_true, beq_iff_eq, decide_eq_true_eq] at hch
      rcases hch with ⟨⟨hkj, hlt⟩, hrest⟩
      rcases List.mem_cons.mp hi with hij | hir
      · subst hij; omega
      · exact ih _ _ hrest i hir

theorem chainToB_append_iff (h : List QNode) :
    ∀ (xs ys : List Nat) (o o2 : Option Nat),
      chainToB h o (xs ++ ys) o2 = true ↔
        ∃ m, chainToB h o xs m = true ∧ chainToB h m ys o2 = true := by
  intro xs
  induction xs with
  | nil =>
    intro ys o o2
    constructor
    · intro hch; exact ⟨o, by simp [chainToB], hch⟩
    · rintro ⟨m, hom, hch⟩
      have : o = m := by simpa [chainToB, beq_iff_eq] using hom
      subst this; exact hch
  | cons x xs ih =>
    intro ys o o2
    cases o with
    | none =>
      constructor
      · intro hch; simp [chainToB] at hch
      · rintro ⟨m, hom, _⟩; simp [chainToB] at hom
    | some i =>
      simp only [List.cons_append, chainToB, Bool.and_eq_true]
      constructor
      · rintro ⟨hpre, hch⟩
        rcases (ih ys _ o2).mp hch with ⟨m, h1, h2⟩
        exact ⟨m, ⟨hpre, h1⟩, h2⟩
      · rintro ⟨m, ⟨hpre, h1⟩, h2⟩
        exact ⟨hpre, (ih ys _ o2).mpr ⟨m, h1, h2⟩⟩

theorem chainToB_congr (h h2 : List QNode) (hlen : h2.length = h.length)
    (hnext : ∀ i, (h2.getD i dQNode).next = (h.getD i dQNode).next) :
    ∀ (ids : List Nat) (o o2 : Option Nat),
      chainToB h2 o ids o2 = chainToB h o ids o2 := by
  intro ids
  induction ids with
  | nil => intro o o2; simp [chainToB]
  | cons j rest ih =>
    intro o o2
    cases o with
    | none => simp [chainToB]
    | some i => simp only [chainToB, hlen, hnext, ih]

theorem chainToB_set_notmem (h : List QNode) (t : Nat) (y : QNode) :
    ∀ (ids : List Nat) (o o2 : Option Nat), t ∉ ids →
      chainToB (h.set t y) o ids o2 = chainToB h o ids o2 := by
  intro ids
  induction ids with
  | nil => intro o o2 _; simp [chainToB]
  | cons j rest ih =>
    intro o o2 hnot
    cases o with
    | none => simp [chainToB]
    | some i =>
      have hjt : j ≠ t := fun hc => hnot (by simp [hc])
      have htr : t ∉ rest := fun hc => hnot (by simp [hc])
      by_cases hij : i = j
      · subst hij
        simp only [chainToB, List.length_set,
          listGetDSetNe dQNode y h t i (fun hc => hjt hc.symm)]
        rw [ih _ _ htr]
      · have h1 : (i == j) = false := by simp [hij]
        simp [chainToB, h1]

theorem chainToB_append_heap (h : List QNode) (x : QNode) :
    ∀ (ids : List Nat) (o o2 : Option Nat), chainToB h o ids o2 = true →
      chainToB (h ++ [x]) o ids o2 = true := by
  intro ids
  induction ids with
  | nil => intro o o2 hch; simpa [chainToB] using hch
  | cons j rest ih =>
    intro o o2 hch
    cases o with
    | none => simp [chainToB] at hch
    | some i =>
      simp only [chainToB, Bool.and_eq_true, beq_iff_eq, decide_eq_true_eq] at hch ⊢
      rcases hch with ⟨⟨hij, hlt⟩, hrest⟩
      refine ⟨⟨hij, by simp [List.length_append]; omega⟩, ?_⟩
      rw [listGetDAppendLeft dQNode h [x] i hlt]
      exact ih _ _ hrest

theorem listLastDecomp {α : Type} :
    ∀ (l : List α) (t : α), l.getLast? = some t → l = l.dropLast ++ [t] := by
  intro l
  induction l with
  | nil => intro t h; simp at h
  | cons a rest ih =>
    intro t h
    cases rest with
    | nil => simp_all
    | cons b rest2 =>
      have h2 : (b :: rest2).getLast? = some t := by
        rw [List.getLast?_cons_cons] at h; exact h
      have := ih t h2
      calc a :: b :: rest2 = a :: (b :: rest2) := rfl
        _ = a :: ((b :: rest2).dropLast ++ [t]) := by rw [← this]
        _ = (a :: b :: rest2).dropLast ++ [t] := by simp

theorem queuePush_inv (h : List QNode) (q : YrQueue) (ids : List Nat) (v : Nat)
    (hin : QInv h q ids) :
    QInv (queuePush h q v).1 (queuePush h q v).2 (ids ++ [h.length]) ∧
    absVals (queuePush h q v).1 (ids ++ [h.length]) = absVals h ids ++ [v] := by
  obtain ⟨qh, qt⟩ := q
  rcases hin with ⟨hch, htail, hnd⟩
  have hbound := chainToB_mem_lt h ids qh none hch
  have hnidnot : h.length ∉ ids := fun hc => by have := hbound _ hc; omega
  cases qt with
  | none =>
    have hids : ids = [] := by
      cases ids with
      | nil => rfl
      | cons x xs =>
        have hs : (x :: xs).getLast?.isSome := List.getLast?_isSome.mpr (by simp)
        rw [← htail] at hs
        simp at hs
    subst hids
    have hhead : qh = none := by simpa [chainToB, beq_iff_eq] using hch
    subst hhead
    refine ⟨⟨?_, ?_, ?_⟩, ?_⟩
    · show chainToB (h ++ [⟨v, none, none⟩]) (some h.length) ([] ++ [h.length]) none = true
      simp only [List.nil_append, chainToB, Bool.and_eq_true, beq_iff_eq,
        decide_eq_true_eq]
      refine ⟨⟨trivial, by simp⟩, ?_⟩
      rw [listGetDAppendLen dQNode _ h]
    · simp [queuePush]
    · simp [queuePush]
    · simp only [queuePush, absVals, List.nil_append, List.map_cons, List.map_nil]
      rw [listGetDAppendLen dQNode _ h]
  | some t =>
    have hlast : ids.getLast? = some t := htail.symm
    have hdecomp := listLastDecomp ids t hlast
    have htlt : t < h.length := by
      have : t ∈ ids := by rw [hdecomp]; simp
      exact hbound _ this
    have htnotpre : t ∉ ids.dropLast := by
      have hnd2 : (ids.dropLast ++ [t]).Nodup := by rw [← hdecomp]; exact hnd
      simp [List.nodup_append] at hnd2
      tauto
    have hchsplit := (chainToB_append_iff h ids.dropLast [t] qh none).mp
      (by rw [← hdecomp]; exact hch)
    rcases hchsplit with ⟨m, hpre, hend⟩
    have hm : m = some t ∧ (h.getD t dQNode).next = none := by
      cases m with
      | none => simp [chainToB] at hend
      | some i =>
        simp only [chainToB, Bool.and_eq_true, beq_iff_eq, decide_eq_true_eq] at hend
        rcases hend with ⟨⟨hit, _⟩, hnone⟩
        subst hit
        refine ⟨rfl, ?_⟩
        cases hnx : (h.getD i dQNode).next with
        | none => rfl
        | some z => rw [hnx] at hnone; simp [chainToB] at hnone
    rcases hm with ⟨hmt, hnextnone⟩
    subst hmt
    set node : QNode := ⟨v, some t, none⟩ with hnode
    set h2 : List QNode := (h ++ [node]).set t
      { (h ++ [node]).getD t dQNode with next := some h.length } with hh2
    have hpush : queuePush h ⟨qh, some t⟩ v = (h2, ⟨qh, some h.length⟩) := by
      simp [queuePush, hh2, hnode]
    have hgetT : (h ++ [node]).getD t dQNode = h.getD t dQNode :=
      listGetDAppendLeft dQNode h [node] t htlt
    have hlen2 : h2.length = h.length + 1 := by
      simp [hh2, List.length_set, List.length_append]
    have hgetT2 : h2.getD t dQNode =
        { (h ++ [node]).getD t dQNode with next := some h.length } :=
      listGetDSetSelf dQNode _ _ _ (by simp [List.length_append]; omega)
    have hgetNid : h2.getD h.length dQNode = node := by
      rw [hh2, listGetDSetNe dQNode _ _ _ _ (by omega)]
      exact listGetDAppendLen dQNode node h
    rw [hpush]
    refine ⟨⟨?_, ?_, ?_⟩, ?_⟩
    · show chainToB h2 qh (ids ++ [h.length]) none = true
      refine (chainToB_append_iff h2 ids [h.length] qh none).mpr
        ⟨some h.length, ?_, ?_⟩
      · rw [hdecomp]
        refine (chainToB_append_iff h2 ids.dropLast [t] qh (some h.length)).mpr
          ⟨some t, ?_, ?_⟩
        · rw [hh2, chainToB_set_notmem _ _ _ _ _ _ htnotpre]
          exact chainToB_append_heap h node _ _ _ hpre
        · simp only [chainToB, Bool.and_eq_true, beq_iff_eq, decide_eq_true_eq]
          refine ⟨⟨trivial, by omega⟩, ?_⟩
          rw [hgetT2]
      · simp only [chainToB, Bool.and_eq_true, beq_iff_eq, decide_eq_true_eq]
        refine ⟨⟨trivial, by omega⟩, ?_⟩
        rw [hgetNid]
    · simp
    · simp only [List.nodup_append]
      refine ⟨hnd, by simp, ?_⟩
      intro x hx
      simp only [List.mem_singleton]
      intro hc; subst hc; exact hnidnot hx
    · show absVals h2 (ids ++ [h.length]) = absVals h ids ++ [v]
      simp only [absVals, List.map_append, List.map_cons, List.map_nil]
      congr 1
      · apply List.map_congr_left
        intro i hi
        have hilt := hbound i hi
        by_cases hit : i = t
        · subst hit
          rw [hgetT2, hgetT]
        · have : h2.getD i dQNode = (h ++ [node]).getD i dQNode :=
            listGetDSetNe dQNode _ _ _ _ (fun hc => hit hc.symm)
          rw [this, listGetDAppendLeft dQNode h [node] i hilt]
      · rw [hgetNid]

theorem queuePop_inv (h : List QNode) (q : YrQueue) (ids : List Nat)
    (hin : QInv h q ids) :
    (ids = [] → queuePop h q = (h, q, none)) ∧
    (∀ i rest, ids = i :: rest →
      (queuePop h q).2.2 = some ((h.getD i dQNode).value) ∧
      QInv (queuePop h q).1 (queuePop h q).2.1 rest ∧
      absVals (queuePop h q).1 rest = absVals h rest) := by
  obtain ⟨qh, qt⟩ := q
  rcases hin with ⟨hch, htail, hnd⟩
  constructor
  · intro hids
    subst hids
    have hhead : qh = none := by simpa [chainToB, beq_iff_eq] using hch
    subst hhead
    simp [queuePop]
  · intro i rest hids
    subst hids
    have hq : qh = some i ∧ i < h.length ∧
        chainToB h (h.getD i dQNode).next rest none = true := by
      cases qh with
      | none => simp [chainToB] at hch
      | some k =>
        simp only [chainToB, Bool.and_eq_true, beq_iff_eq, decide_eq_true_eq] at hch
        rcases hch with ⟨⟨hki, hlt⟩, hrest⟩
        subst hki
        exact ⟨rfl, hlt, hrest⟩
    rcases hq with ⟨hhead, hilt, hrest⟩
    subst hhead
    have hpop : queuePop h ⟨some i, qt⟩ =
        (match (h.getD i dQNode).next with
          | some h2 => h.set h2 { h.getD h2 dQNode with prev := none }
          | none => h,
         ⟨(h.getD i dQNode).next,
          match (h.getD i dQNode).next with
          | some _ => qt
          | none => none⟩,
         some ((h.getD i dQNode).value)) := by
      simp [queuePop]
    rw [hpop]
    set h1 : List QNode :=
      (match (h.getD i dQNode).next with
        | some h2 => h.set h2 { h.getD h2 dQNode with prev := none }
        | none => h) with hh1
    have hlen1 : h1.length = h.length := by
      rw [hh1]; cases (h.getD i dQNode).next <;> simp [List.length_set]
    have hnexts : ∀ j, (h1.getD j dQNode).next = (h.getD j dQNode).next := by
      intro j
      rw [hh1]
      cases hnx : (h.getD i dQNode).next with
      | none => rfl
      | some h2 =>
        dsimp only
        by_cases hj : h2 = j
        · subst hj
          by_cases hlt2 : h2 < h.length
          · rw [listGetDSetSelf dQNode _ _ _ hlt2]
          · rw [List.set_eq_of_length_le (by omega)]
        · rw [listGetDSetNe dQNode _ _ _ _ hj]
    have hvals : ∀ j, (h1.getD j dQNode).value = (h.getD j dQNode).value := by
      intro j
      rw [hh1]
      cases hnx : (h.getD i dQNode).next with
      | none => rfl
      | some h2 =>
        dsimp only
        by_cases hj : h2 = j
        · subst hj
          by_cases hlt2 : h2 < h.length
          · rw [listGetDSetSelf dQNode _ _ _ hlt2]
          · rw [List.set_eq_of_length_le (by omega)]
        · rw [listGetDSetNe dQNode _ _ _ _ hj]
    refine ⟨rfl, ⟨?_, ?_, ?_⟩, ?_⟩
    · show chainToB h1 (h.getD i dQNode).next rest none = true
      rw [chainToB_congr h h1 hlen1 hnexts]
      exact hrest
    · show (match (h.getD i dQNode).next with
        | some _ => qt
        | none => none) = rest.getLast?
      cases hrt : rest with
      | nil =>
        subst hrt
        have hnn : (h.getD i dQNode).next = none := by
          simpa [chainToB, beq_iff_eq] using hrest
        rw [hnn]
        rfl
      | cons r rest2 =>
        subst hrt
        have hnx : (h.getD i dQNode).next = some r := by
          cases hnn : (h.getD i dQNode).next with
          | none => rw [hnn] at hrest; simp [chainToB] at hrest
          | some k =>
            rw [hnn] at hrest
            simp only [chainToB, Bool.and_eq_true, beq_iff_eq] at hrest
            rw [hrest.1.1]
        rw [hnx]
        dsimp only
        have hqt : qt = (i :: r :: rest2).getLast? := htail
        rw [hqt, List.getLast?_cons_cons]
    · exact (List.nodup_cons.mp hnd).2
    · show absVals h1 rest = absVals h rest
      simp only [absVals]
      exact List.map_congr_left (fun j _ => hvals j)

theorem queueIsEmpty_inv (h : List QNode) (q : YrQueue) (ids : List Nat)
    (hin : QInv h q ids) : queueIsEmpty q = true ↔ ids = [] := by
  rcases hin with ⟨hch, _, _⟩
  cases hq : q.head with
  | none =>
    cases ids with
    | nil => simp [queueIsEmpty, hq]
    | cons j rest => rw [hq] at hch; simp [chainToB] at hch
  | some i =>
    cases ids with
    | nil =>
      rw [hq] at hch
      simp [chainToB] at hch
    | cons j rest => simp [queueIsEmpty, hq]

theorem runQueue_fifo : ∀ (ops : List QOp) (h : List QNode) (q : YrQueue) (ids : List Nat),
    QInv h q ids →
    (runQueue ops h q).1 = (runFifo ops (absVals h ids)).1 ∧
    ∃ ids2, QInv (runQueue ops h q).2.1 (runQueue ops h q).2.2 ids2 ∧
      absVals (runQueue ops h q).2.1 ids2 = (runFifo ops (absVals h ids)).2 := by
  intro ops
  induction ops with
  | nil => intro h q ids hin; exact ⟨rfl, ids, hin, rfl⟩
  | cons op rest ih =>
    intro h q ids hin
    cases op with
    | push v =>
      have hp := queuePush_inv h q ids v hin
      have hrec := ih (queuePush h q v).1 (queuePush h q v).2 (ids ++ [h.length]) hp.1
      rw [hp.2] at hrec
      show ((runQueue rest (queuePush h q v).1 (queuePush h q v).2).1 = _) ∧ _
      refine ⟨?_, ?_⟩
      · rw [hrec.1]
        rfl
      · rcases hrec.2 with ⟨ids2, hinv2, habs2⟩
        exact ⟨ids2, hinv2, habs2⟩
    | pop =>
      have hp := queuePop_inv h q ids hin
      cases hids : ids with
      | nil =>
        subst hids
        have heq := hp.1 rfl
        have hrec := ih h q [] hin
        have habs0 : absVals h ([] : List Nat) = [] := rfl
        simp only [runQueue, heq, habs0, runFifo]
        constructor
        · rw [hrec.1]
          rfl
        · exact hrec.2
      | cons i rest2 =>
        subst hids
        rcases hp.2 i rest2 rfl with ⟨hval, hinv1, habs1⟩
        have hrec := ih (queuePop h q).1 (queuePop h q).2.1 rest2 hinv1
        rw [habs1] at hrec
        have habsall : absVals h (i :: rest2) =
            (h.getD i dQNode).value :: absVals h rest2 := rfl
        simp only [runQueue, habsall, runFifo]
        constructor
        · rw [hval, hrec.1]
          rfl
        · exact hrec.2

theorem modify_keep (a : Automaton) (sid : Nat) (f : AcState → AcState)
    (hf : ∀ st, (f st).depth = st.depth ∧ (f st).trans = st.trans) (u : Nat) :
    (getState (modifyState a sid f) u).depth = (getState a u).depth ∧
    (getState (modifyState a sid f) u).trans = (getState a u).trans := by
  by_cases hlt : sid < a.states.length
  · by_cases hu : sid = u
    · subst hu
      rw [getState_modify_self _ _ _ hlt]
      exact hf _
    · rw [getState_modify_ne _ _ _ _ hu]
      exact ⟨rfl, rfl⟩
  · have hst : (modifyState a sid f).states = a.states :=
      List.set_eq_of_length_le (by omega)
    simp [getState, hst]

theorem setFailureAt_keep (a : Automaton) (s f u : Nat) :
    (getState (setFailureAt a s f) u).depth = (getState a u).depth ∧
    (getState (setFailureAt a s f) u).trans = (getState a u).trans :=
  modify_keep a s (fun st => { st with failure := some f }) (fun _ => ⟨rfl, rfl⟩) u

theorem setMatchesAt_keep (a : Automaton) (s : Nat) (ms : List AcMatch) (u : Nat) :
    (getState (setMatchesAt a s ms) u).depth = (getState a u).depth ∧
    (getState (setMatchesAt a s ms) u).trans = (getState a u).trans :=
  modify_keep a s (fun st => { st with matchChain := ms }) (fun _ => ⟨rfl, rfl⟩) u

theorem innerLink_keep (probe : Nat) : ∀ (fuel : Nat) (a : Automaton) (fs t u : Nat),
    (getState (innerLink probe fuel a fs t) u).depth = (getState a u).depth ∧
    (getState (innerLink probe fuel a fs t) u).trans = (getState a u).trans ∧
    (innerLink probe fuel a fs t).states.length = a.states.length ∧
    (innerLink probe fuel a fs t).root = a.root := by
  intro fuel
  induction fuel with
  | zero => intro a fs t u; exact ⟨rfl, rfl, rfl, rfl⟩
  | succ n ih =>
    intro a fs t u
    simp only [innerLink]
    cases hns : nextState (getState a fs) probe with
    | some temp =>
      have h1 := setFailureAt_keep a t temp u
      have h2 := setMatchesAt_keep (setFailureAt a t temp) t
        (if (getState (setFailureAt a t temp) t).matchChain = []
         then (getState (setFailureAt a t temp) temp).matchChain
         else (getState (setFailureAt a t temp) t).matchChain ++
           (getState (setFailureAt a t temp) temp).matchChain) u
      refine ⟨?_, ?_, ?_, ?_⟩
      · rw [h2.1, h1.1]
      · rw [h2.2, h1.2]
      · simp [setMatchesAt, setFailureAt, modify_length]
      · rfl
    | none =>
      by_cases hfs : fs = a.root
      · simp only [if_pos hfs]
        have h1 := setFailureAt_keep a t a.root u
        exact ⟨h1.1, h1.2, by simp [setFailureAt, modify_length], rfl⟩
      · simp only [if_neg hfs]
        exact ih a ((getState a fs).failure.getD a.root) t u

theorem childIds_congr (s1 s2 : AcState) (hd : s1.depth = s2.depth)
    (ht : s1.trans = s2.trans) : childIds s1 = childIds s2 := by
  simp only [childIds, childPairs, hd, ht]

theorem cflFold_keep (iv s : Nat) : ∀ (kids : List Nat) (a : Automaton) (u : Nat),
    (getState (kids.foldl (fun acc t => innerLink iv (acc.states.length + 1) acc
        ((getState acc s).failure.getD acc.root) t) a) u).depth = (getState a u).depth ∧
    (getState (kids.foldl (fun acc t => innerLink iv (acc.states.length + 1) acc
        ((getState acc s).failure.getD acc.root) t) a) u).trans = (getState a u).trans ∧
    (kids.foldl (fun acc t => innerLink iv (acc.states.length + 1) acc
        ((getState acc s).failure.getD acc.root) t) a).states.length = a.states.length ∧
    (kids.foldl (fun acc t => innerLink iv (acc.states.length + 1) acc
        ((getState acc s).failure.getD acc.root) t) a).root = a.root := by
  intro kids
  induction kids with
  | nil => intro a u; exact ⟨rfl, rfl, rfl, rfl⟩
  | cons k ks ih =>
    intro a u
    have h1 := innerLink_keep iv (a.states.length + 1) a
      ((getState a s).failure.getD a.root) k u
    have h2 := ih (innerLink iv (a.states.length + 1) a
      ((getState a s).failure.getD a.root) k) u
    simp only [List.foldl_cons]
    exact ⟨h2.1.trans h1.1, h2.2.1.trans h1.2.1,
      h2.2.2.1.trans h1.2.2.1, h2.2.2.2.trans h1.2.2.2⟩

theorem cflStep_keep (iv : Nat) (a : Automaton) (s : Nat) :
    (∀ u, (getState (cflStep iv a s).1 u).depth = (getState a u).depth ∧
      (getState (cflStep iv a s).1 u).trans = (getState a u).trans) ∧
    (cflStep iv a s).1.states.length = a.states.length ∧
    (cflStep iv a s).1.root = a.root ∧
    (cflStep iv a s).2 = childIds (getState a s) := by
  have hm := fun u => setMatchesAt_keep a s
    (cflAdjust (getState a s).matchChain (getState a a.root).matchChain) u
  set a1 := setMatchesAt a s
    (cflAdjust (getState a s).matchChain (getState a a.root).matchChain) with ha1
  have hf := cflFold_keep iv s (childIds (getState a1 s)) a1
  refine ⟨?_, ?_, ?_, ?_⟩
  · intro u
    exact ⟨((hf u).1).trans (hm u).1, ((hf u).2.1).trans (hm u).2⟩
  · exact ((hf 0).2.2.1).trans (by simp [ha1, setMatchesAt, modify_length])
  · exact (hf 0).2.2.2
  · show childIds (getState a1 s) = childIds (getState a s)
    exact childIds_congr _ _ (hm s).1 (hm s).2

theorem depthOk_of_keep (a a2 : Automaton)
    (hlen : a2.states.length = a.states.length)
    (hkeep : ∀ u, (getState a2 u).depth = (getState a u).depth ∧
      (getState a2 u).trans = (getState a u).trans)
    (hd : DepthOk a) : DepthOk a2 := by
  intro sid hsid c hc
  rw [(hkeep c).1, (hkeep sid).1]
  apply hd sid (by omega)
  rwa [childIds_congr (getState a2 sid) (getState a sid) (hkeep sid).1 (hkeep sid).2] at hc

theorem pairwiseLeOfConst (c : Nat) :
    ∀ (l : List Nat) (f : Nat → Nat), (∀ x ∈ l, f x = c) →
      List.Pairwise (· ≤ ·) (l.map f) := by
  intro l
  induction l with
  | nil => intro f _; simp
  | cons x xs ih =>
    intro f hall
    simp only [List.map_cons, List.pairwise_cons]
    constructor
    · intro b hb
      rcases List.mem_map.mp hb with ⟨y, hy, hfy⟩
      rw [hall x (by simp), ← hfy, hall y (by simp [hy])]
    · exact ih f (fun y hy => hall y (by simp [hy]))

theorem cflLoopBuggy_visits (iv : Nat) : ∀ (fuel : Nat) (q : List Nat) (a : Automaton),
    DepthOk a →
    List.Pairwise (· ≤ ·) (q.map (fun s => (getState a s).depth)) →
    (∀ x ∈ q, ∀ y ∈ q, (getState a x).depth ≤ (getState a y).depth + 1) →
    List.Pairwise (· ≤ ·)
      ((cflLoopBuggy iv fuel a q).2.map (fun s => (getState a s).depth)) ∧
    (∀ v ∈ (cflLoopBuggy iv fuel a q).2,
      ∃ y ∈ q, (getState a y).depth ≤ (getState a v).depth) := by
  intro fuel
  induction fuel with
  | zero =>
    intro q a _ _ _
    exact ⟨by simp [cflLoopBuggy], by simp [cflLoopBuggy]⟩
  | succ n ih =>
    intro q a hdok hsort hgap
    cases q with
    | nil => exact ⟨by simp [cflLoopBuggy], by simp [cflLoopBuggy]⟩
    | cons s rest =>
      have hk := cflStep_keep iv a s
      have hfun : (fun u => (getState (cflStep iv a s).1 u).depth) =
          (fun u => (getState a u).depth) := funext (fun u => (hk.1 u).1)
      have hdok2 : DepthOk (cflStep iv a s).1 :=
        depthOk_of_keep a _ hk.2.1 hk.1 hdok
      have hkd : ∀ k ∈ (cflStep iv a s).2,
          (getState a k).depth = (getState a s).depth + 1 := by
        intro k hkmem
        rw [hk.2.2.2] at hkmem
        by_cases hslen : s < a.states.length
        · exact hdok s hslen k hkmem
        · exfalso
          have : getState a s = dState := listGetDGe dState a.states s (by omega)
          rw [this] at hkmem
          simp [childIds, childPairs, dState, MAX_TABLE_BASED_STATES_DEPTH] at hkmem
      have hsrest : List.Pairwise (· ≤ ·) (rest.map (fun u => (getState a u).depth)) :=
        (List.pairwise_cons.mp hsort).2
      have hheadle : ∀ y ∈ rest, (getState a s).depth ≤ (getState a y).depth := by
        intro y hy
        exact (List.pairwise_cons.mp hsort).1 _ (List.mem_map.mpr ⟨y, hy, rfl⟩)
      have hgaphead : ∀ x ∈ rest, (getState a x).depth ≤ (getState a s).depth + 1 :=
        fun x hx => hgap x (by simp [hx]) s (by simp)
      -- preconditions of the recursive call
      have hsort2 : List.Pairwise (· ≤ ·)
          ((rest ++ (cflStep iv a s).2).map
            (fun u => (getState (cflStep iv a s).1 u).depth)) := by
        rw [hfun, List.map_append]
        refine List.pairwise_append.mpr ⟨hsrest, ?_, ?_⟩
        · exact pairwiseLeOfConst ((getState a s).depth + 1) _ _ hkd
        · intro dx hdx dy hdy
          rcases List.mem_map.mp hdx with ⟨x, hx, hfx⟩
          rcases List.mem_map.mp hdy with ⟨y, hy, hfy⟩
          rw [← hfx, ← hfy, hkd y hy]
          exact hgaphead x hx
      have hgap2 : ∀ x ∈ rest ++ (cflStep iv a s).2,
          ∀ y ∈ rest ++ (cflStep iv a s).2,
            (getState (cflStep iv a s).1 x).depth ≤
              (getState (cflStep iv a s).1 y).depth + 1 := by
        intro x hx y hy
        rw [(hk.1 x).1, (hk.1 y).1]
        rcases List.mem_append.mp hx with hx1 | hx2 <;>
          rcases List.mem_append.mp hy with hy1 | hy2
        · exact hgap x (by simp [hx1]) y (by simp [hy1])
        · rw [hkd y hy2]
          have := hgaphead x hx1
          omega
        · rw [hkd x hx2]
          have := hheadle y hy1
          omega
        · rw [hkd x hx2, hkd y hy2]
          omega
      have hrec := ih (rest ++ (cflStep iv a s).2) (cflStep iv a s).1 hdok2 hsort2 hgap2
      rw [hfun] at hrec
      have hunf : (cflLoopBuggy iv (n + 1) a (s :: rest)).2 =
          s :: (cflLoopBuggy iv n (cflStep iv a s).1 (rest ++ (cflStep iv a s).2)).2 := rfl
      rw [hunf]
      have hbound : ∀ v ∈ (cflLoopBuggy iv n (cflStep iv a s).1
          (rest ++ (cflStep iv a s).2)).2,
          (getState a s).depth ≤ (getState a v).depth := by
        intro v hv
        rcases hrec.2 v hv with ⟨y, hy, hle⟩
        rw [(hk.1 y).1, (hk.1 v).1] at hle
        rcases List.mem_append.mp hy with hy1 | hy2
        · exact le_trans (hheadle y hy1) hle
        · rw [hkd y hy2] at hle
          omega
      constructor
      · simp only [List.map_cons, List.pairwise_cons]
        refine ⟨?_, hrec.1⟩
        intro b hb
        rcases List.mem_map.mp hb with ⟨v, hv, hfv⟩
        rw [← hfv]
        exact hbound v hv
      · intro v hv
        rcases List.mem_cons.mp hv with hv1 | hv2
        · exact ⟨s, by simp, by rw [hv1]⟩
        · exact ⟨s, by simp, hbound v hv2⟩

theorem foldSetF_keep : ∀ (kids : List Nat) (a : Automaton) (u : Nat),
    (getState (kids.foldl (fun acc c => setFailureAt acc c acc.root) a) u).depth =
      (getState a u).depth ∧
    (getState (kids.foldl (fun acc c => setFailureAt acc c acc.root) a) u).trans =
      (getState a u).trans ∧
    (kids.foldl (fun acc c => setFailureAt acc c acc.root) a).states.length =
      a.states.length ∧
    (kids.foldl (fun acc c => setFailureAt acc c acc.root) a).root = a.root := by
  intro kids
  induction kids with
  | nil => intro a u; exact ⟨rfl, rfl, rfl, rfl⟩
  | cons k ks ih =>
    intro a u
    have h1 := setFailureAt_keep a k a.root u
    have h2 := ih (setFailureAt a k a.root) u
    simp only [List.foldl_cons]
    exact ⟨h2.1.trans h1.1, h2.2.1.trans h1.2,
      h2.2.2.1.trans (by simp [setFailureAt, modify_length]),
      h2.2.2.2.trans rfl⟩

/-- C10: the malloc-linked queue of ahocorasick.c refines a FIFO list —
over every sequence of pushes and pops, the pops return exactly the pushed
values in push order (null on an empty queue) and `_yr_ac_queue_is_empty`
holds exactly when every pushed value has been popped — and consequently
the BFS of `yr_ac_create_failure_links` dequeues trie states in
non-decreasing depth order. -/
theorem queue_fifo_refinement :
    (∀ ops : List QOp,
      (runQueue ops [] ⟨none, none⟩).1 = (runFifo ops []).1 ∧
      (queueIsEmpty (runQueue ops [] ⟨none, none⟩).2.2 = true ↔
        (runFifo ops []).2 = [])) ∧
    (∀ (a : Automaton) (iv : Nat), DepthOk a →
      List.Sorted (· ≤ ·)
        ((createFailureLinksBuggy iv a).2.map (fun s => (getState a s).depth))) := by
  constructor
  · intro ops
    have h0 : QInv [] ⟨none, none⟩ [] := ⟨by decide, rfl, List.nodup_nil⟩
    have hr := runQueue_fifo ops [] ⟨none, none⟩ [] h0
    constructor
    · exact hr.1
    · rcases hr.2 with ⟨ids2, hinv2, habs2⟩
      have hiff := queueIsEmpty_inv _ _ _ hinv2
      constructor
      · intro he
        have hids : ids2 = [] := hiff.mp he
        have habs2b : absVals (runQueue ops [] ⟨none, none⟩).2.1 ids2 =
            (runFifo ops []).2 := habs2
        rw [← habs2b, hids]
        rfl
      · intro he
        apply hiff.mpr
        have habs0 : absVals (runQueue ops [] ⟨none, none⟩).2.1 ids2 = [] := by
          rw [habs2]
          exact he
        simpa [absVals] using habs0
  · intro a iv hdok
    set a1 := setFailureAt a a.root a.root with ha1
    set kids := childIds (getState a1 a.root) with hkdef
    set a2 := kids.foldl (fun acc c => setFailureAt acc c acc.root) a1 with ha2
    have hunf : (createFailureLinksBuggy iv a).2 =
        (cflLoopBuggy iv (a2.states.length + 1) a2 kids).2 := rfl
    have hksf := fun u => setFailureAt_keep a a.root a.root u
    have hfold := fun u => foldSetF_keep kids a1 u
    have hka : ∀ u, (getState a2 u).depth = (getState a u).depth ∧
        (getState a2 u).trans = (getState a u).trans :=
      fun u => ⟨((hfold u).1).trans (hksf u).1, ((hfold u).2.1).trans (hksf u).2⟩
    have hlen : a2.states.length = a.states.length :=
      ((hfold 0).2.2.1).trans (by simp [ha1, setFailureAt, modify_length])
    have hdok2 : DepthOk a2 := depthOk_of_keep a a2 hlen hka hdok
    have hfun : (fun u => (getState a2 u).depth) = (fun u => (getState a u).depth) :=
      funext (fun u => (hka u).1)
    have hkids_a : kids = childIds (getState a a.root) := by
      rw [hkdef]
      exact childIds_congr _ _ (hksf a.root).1 (hksf a.root).2
    have hkd : ∀ k ∈ kids, (getState a k).depth = (getState a a.root).depth + 1 := by
      intro k hk
      rw [hkids_a] at hk
      by_cases hroot : a.root < a.states.length
      · exact hdok a.root hroot k hk
      · exfalso
        have hds : getState a a.root = dState := listGetDGe dState a.states a.root (by omega)
        rw [hds] at hk
        simp [childIds, childPairs, dState, MAX_TABLE_BASED_STATES_DEPTH] at hk
    have hsort0 : List.Pairwise (· ≤ ·) (kids.map (fun u => (getState a2 u).depth)) := by
      rw [hfun]
      exact pairwiseLeOfConst ((getState a a.root).depth + 1) _ _ hkd
    have hgap0 : ∀ x ∈ kids, ∀ y ∈ kids,
        (getState a2 x).depth ≤ (getState a2 y).depth + 1 := by
      intro x hx y hy
      rw [(hka x).1, (hka y).1, hkd x hx, hkd y hy]
      omega
    have hv := cflLoopBuggy_visits iv (a2.states.length + 1) kids a2 hdok2 hsort0 hgap0
    rw [hunf]
    have := hv.1
    rw [hfun] at this
    exact this

theorem queue_fifo_refinement_witness :
    List.Sorted (· ≤ ·)
      ((createFailureLinksBuggy 0 demoAuto).2.map
        (fun s => (getState demoAuto s).depth)) :=
  queue_fifo_refinement.2 demoAuto 0 (by decide)

theorem listGetDMem {α : Type} (d : α) :
    ∀ (l : List α) (i : Nat), i < l.length → l.getD i d ∈ l := by
  intro l
  induction l with
  | nil => intro i h; simp at h
  | cons a t ih =>
    intro i h
    cases i with
    | zero => simp
    | succ j =>
      have := ih j (by simpa using h)
      simpa using Or.inr this

theorem installEdge_matchChain (s : AcState) (b n : Nat) :
    (installEdge s b n).matchChain = s.matchChain := by
  unfold installEdge
  by_cases hd : s.depth ≤ MAX_TABLE_BASED_STATES_DEPTH
  · rw [if_pos hd]; cases s.trans <;> rfl
  · rw [if_neg hd]; cases s.trans <;> rfl

theorem installEdge_depth (s : AcState) (b n : Nat) :
    (installEdge s b n).depth = s.depth := by
  unfold installEdge
  by_cases hd : s.depth ≤ MAX_TABLE_BASED_STATES_DEPTH
  · rw [if_pos hd]; cases s.trans <;> rfl
  · rw [if_neg hd]; cases s.trans <;> rfl

theorem nextState_mem_targets (st : AcState) (b n : Nat) (hb : b < 256)
    (h : nextState st b = some n) : n ∈ transTargets st := by
  unfold nextState at h
  by_cases hd : st.depth ≤ MAX_TABLE_BASED_STATES_DEPTH
  · rw [if_pos hd] at h
    cases htr : st.trans with
    | table t =>
      rw [htr] at h
      simp only [transTargets, htr]
      exact List.mem_filterMap.mpr ⟨b, List.mem_range.mpr hb, h⟩
    | list l => rw [htr] at h; simp at h
  · rw [if_neg hd] at h
    cases htr : st.trans with
    | table t => rw [htr] at h; simp at h
    | list l =>
      rw [htr] at h
      rcases Option.map_eq_some'.mp h with ⟨p, hfind, hp2⟩
      have hmem := List.mem_of_find?_eq_some hfind
      simp only [transTargets, htr]
      exact List.mem_map.mpr ⟨p, hmem, hp2⟩

theorem installEdge_targets (s : AcState) (b n x : Nat)
    (hx : x ∈ transTargets (installEdge s b n)) : x = n ∨ x ∈ transTargets s := by
  obtain ⟨d, fl, mc, tr⟩ := s
  by_cases hd : d ≤ MAX_TABLE_BASED_STATES_DEPTH
  · cases tr with
    | table t =>
      simp only [installEdge, if_pos hd] at hx
      simp only [transTargets] at hx ⊢
      rcases List.mem_filterMap.mp hx with ⟨b2, hb2r, hb2⟩
      by_cases hbb : b2 = b
      · rw [if_pos hbb] at hb2
        exact Or.inl (by simpa using hb2.symm)
      · rw [if_neg hbb] at hb2
        exact Or.inr (List.mem_filterMap.mpr ⟨b2, hb2r, hb2⟩)
    | list l =>
      simp only [installEdge, if_pos hd] at hx
      exact Or.inr hx
  · cases tr with
    | table t =>
      simp only [installEdge, if_neg hd] at hx
      exact Or.inr hx
    | list l =>
      simp only [installEdge, if_neg hd] at hx
      simp only [transTargets, List.map_cons] at hx ⊢
      rcases List.mem_cons.mp hx with h1 | h2
      · exact Or.inl h1
      · exact Or.inr h2

theorem dState_targets : transTargets dState = [] := rfl

theorem getState_ge (a : Automaton) (sid : Nat) (h : a.states.length ≤ sid) :
    getState a sid = dState := listGetDGe dState a.states sid h

theorem newChildState_targets (d : Nat) :
    transTargets ⟨d + 1, none, [],
      if d < MAX_TABLE_BASED_STATES_DEPTH
      then AcTransitions.table (fun _ => none) else AcTransitions.list []⟩ = [] := by
  by_cases hc : d < MAX_TABLE_BASED_STATES_DEPTH
  · simp [transTargets, if_pos hc]
  · simp [transTargets, if_neg hc]

theorem createState_states (a : Automaton) (sid b : Nat) :
    (createState a sid b).1.states =
      (a.states ++ [(⟨(getState a sid).depth + 1, none, [],
        if (getState a sid).depth < MAX_TABLE_BASED_STATES_DEPTH
        then AcTransitions.table (fun _ => none) else AcTransitions.list []⟩ : AcState)]).set sid
        (installEdge (getState a sid) b a.states.length) := rfl

theorem createState_matchChain (a : Automaton) (sid b u : Nat) :
    (getState (createState a sid b).1 u).matchChain = (getState a u).matchChain := by
  have hst := createState_states a sid b
  by_cases hu : u = sid
  · subst hu
    by_cases hsl : u < a.states.length + 1
    · have h1 : getState (createState a u b).1 u =
          installEdge (getState a u) b a.states.length := by
        rw [getState, hst]
        exact listGetDSetSelf _ _ _ _ (by simp [List.length_append]; omega)
      rw [h1, installEdge_matchChain]
    · have h1 : getState (createState a u b).1 u = dState := by
        rw [getState, hst, List.set_eq_of_length_le (by simp [List.length_append]; omega)]
        exact listGetDGe dState _ u (by simp [List.length_append]; omega)
      rw [h1, getState_ge a u (by omega)]
  · have h1 : (getState (createState a sid b).1 u).matchChain =
        ((a.states ++ [(⟨(getState a sid).depth + 1, none, [],
          if (getState a sid).depth < MAX_TABLE_BASED_STATES_DEPTH
          then AcTransitions.table (fun _ => none) else AcTransitions.list []⟩ : AcState)]).getD
          u dState).matchChain := by
      rw [getState, hst, listGetDSetNe _ _ _ _ _ (fun hc => hu hc.symm)]
    rw [h1]
    rcases Nat.lt_trichotomy u a.states.length with hlt | heq | hgt
    · rw [listGetDAppendLeft dState _ _ u hlt]; rfl
    · rw [heq, listGetDAppendLen dState _ _, getState_ge a a.states.length (by omega)]
      rfl
    · rw [listGetDGe dState _ u (by simp [List.length_append]; omega),
        getState_ge a u (by omega)]

theorem createState_wf (a : Automaton) (sid b : Nat) (hwf : WF a) :
    WF (createState a sid b).1 ∧
    (createState a sid b).2 < (createState a sid b).1.states.length ∧
    (createState a sid b).1.states.length = a.states.length + 1 ∧
    (createState a sid b).1.root = a.root := by
  have hlen : (createState a sid b).1.states.length = a.states.length + 1 := by
    rw [createState_states]
    simp [List.length_set, List.length_append]
  refine ⟨⟨?_, ?_⟩, ?_, hlen, rfl⟩
  · have hroot : (createState a sid b).1.root = a.root := rfl
    rw [hroot, hlen]
    have := hwf.1
    omega
  · intro st hst x hx
    rw [hlen]
    rw [createState_states] at hst
    rcases List.mem_or_eq_of_mem_set hst with hmem1 | hmem2
    · rcases List.mem_append.mp hmem1 with hold | hnew
      · have := hwf.2 st hold x hx
        omega
      · have hstn : st = ⟨(getState a sid).depth + 1, none, [],
            if (getState a sid).depth < MAX_TABLE_BASED_STATES_DEPTH
            then AcTransitions.table (fun _ => none) else AcTransitions.list []⟩ := by
          simpa using hnew
        rw [hstn, newChildState_targets] at hx
        simp at hx
    · subst hmem2
      rcases installEdge_targets _ _ _ _ hx with h1 | h2
      · omega
      · by_cases hsl : sid < a.states.length
        · have := hwf.2 _ (listGetDMem dState a.states sid hsl) x h2
          omega
        · rw [getState_ge a sid (by omega), dState_targets] at h2
          simp at h2
  · have h2 : (createState a sid b).2 = a.states.length := rfl
    rw [h2, hlen]
    omega

theorem walkCreate_props : ∀ (bs : List Nat) (a : Automaton) (sid : Nat),
    WF a → sid < a.states.length → (∀ b ∈ bs, b < 256) →
    WF (walkCreate bs a sid).1 ∧
    (walkCreate bs a sid).2 < (walkCreate bs a sid).1.states.length ∧
    (walkCreate bs a sid).1.root = a.root ∧
    (∀ u, (getState (walkCreate bs a sid).1 u).matchChain = (getState a u).matchChain) := by
  intro bs
  induction bs with
  | nil => intro a sid hwf hsid _; exact ⟨hwf, hsid, rfl, fun _ => rfl⟩
  | cons b bs ih =>
    intro a sid hwf hsid hb
    have hb256 : b < 256 := hb b (by simp)
    have hbs : ∀ b2 ∈ bs, b2 < 256 := fun b2 h2 => hb b2 (by simp [h2])
    simp only [walkCreate]
    cases hns : nextState (getState a sid) b with
    | some nxt =>
      have hnxt : nxt < a.states.length := by
        have hm := nextState_mem_targets (getState a sid) b nxt hb256 hns
        exact hwf.2 _ (listGetDMem dState a.states sid hsid) nxt hm
      exact ih a nxt hwf hnxt hbs
    | none =>
      have hc := createState_wf a sid b hwf
      have hrec := ih (createState a sid b).1 (createState a sid b).2 hc.1 hc.2.1 hbs
      refine ⟨hrec.1, hrec.2.1, hrec.2.2.1.trans hc.2.2.2, ?_⟩
      intro u
      rw [hrec.2.2.2 u, createState_matchChain]

/-- C4: each token insertion of `yr_ac_add_string` attaches, at the state
reached by walking the token's bytes, a new output record whose backtrack
is the terminal state's depth plus the token's emitted backtrack, prepended
to that state's chain; no other state's chain changes. -/
theorem token_output_record_spec (a : Automaton) (pid : Nat) (r : TokenRec)
    (hwf : WF a) (hb : ∀ b ∈ r.bytes, b < 256) :
    (getState (insertToken a pid r) (walkCreate r.bytes a a.root).2).matchChain =
      AcMatch.mk pid
        (((getState (walkCreate r.bytes a a.root).1
            (walkCreate r.bytes a a.root).2).depth : Int) + r.backtrack) ::
        (getState (walkCreate r.bytes a a.root).1
          (walkCreate r.bytes a a.root).2).matchChain ∧
    (∀ u, u ≠ (walkCreate r.bytes a a.root).2 →
      (getState (insertToken a pid r) u).matchChain = (getState a u).matchChain) := by
  have hw := walkCreate_props r.bytes a a.root hwf hwf.1 hb
  constructor
  · show (getState (modifyState (walkCreate r.bytes a a.root).1
        (walkCreate r.bytes a a.root).2 _) (walkCreate r.bytes a a.root).2).matchChain = _
    rw [getState_modify_self _ _ _ hw.2.1]
  · intro u hu
    show (getState (modifyState (walkCreate r.bytes a a.root).1
        (walkCreate r.bytes a a.root).2 _) u).matchChain = _
    rw [getState_modify_ne _ _ _ _ (fun hc => hu hc.symm)]
    exact hw.2.2.2 u

theorem token_output_record_spec_witness :
    (getState (insertToken createAutomaton 7 (TokenRec.mk 2 5 [97, 98]))
        (walkCreate [97, 98] createAutomaton 0).2).matchChain =
      AcMatch.mk 7
        (((getState (walkCreate [97, 98] createAutomaton 0).1
            (walkCreate [97, 98] createAutomaton 0).2).depth : Int) + 5) ::
        (getState (walkCreate [97, 98] createAutomaton 0).1
          (walkCreate [97, 98] createAutomaton 0).2).matchChain ∧
    (getState (insertToken createAutomaton 7 (TokenRec.mk 2 5 [97, 98])) 0).matchChain =
      (getState createAutomaton 0).matchChain := by
  have h := token_output_record_spec createAutomaton 7 (TokenRec.mk 2 5 [97, 98])
    (by decide) (by decide)
  exact ⟨h.1, h.2 0 (by decide)⟩

theorem gcc_len : ∀ (fuel : Nat) (token : List Nat) (off : Nat) (bt : Int),
    token.length - off ≤ fuel →
    ∀ r ∈ genCaseCombinations token off bt, r.length = token.length := by
  intro fuel
  induction fuel with
  | zero =>
    intro token off bt hle r hr
    unfold genCaseCombinations at hr
    dsimp only at hr
    rw [dif_neg (by omega), dif_neg (by omega)] at hr
    by_cases hl : isLetter (token.getD off 0) = true
    · rw [if_pos hl] at hr
      simp only [List.nil_append, List.mem_singleton] at hr
      rw [hr]
    · rw [if_neg hl] at hr
      simp at hr
  | succ fuel ih =>
    intro token off bt hle r hr
    unfold genCaseCombinations at hr
    dsimp only at hr
    by_cases hoff : off + 1 < token.length
    · rw [dif_pos hoff, dif_pos hoff] at hr
      by_cases hl : isLetter (token.getD off 0) = true
      · rw [if_pos hl] at hr
        simp only [List.mem_append, List.mem_cons] at hr
        rcases hr with h1 | h1 | h1
        · exact ih token (off + 1) bt (by omega) r h1
        · rw [h1]
        · have h2 := ih (token.set off (toggleCase (token.getD off 0))) (off + 1) bt
            (by simp only [List.length_set]; omega) r h1
          simpa [List.length_set] using h2
      · rw [if_neg hl] at hr
        exact ih token (off + 1) bt (by omega) r hr
    · rw [dif_neg hoff, dif_neg hoff] at hr
      by_cases hl : isLetter (token.getD off 0) = true
      · rw [if_pos hl] at hr
        simp only [List.nil_append, List.mem_singleton] at hr
        rw [hr]
      · rw [if_neg hl] at hr
        simp at hr

theorem gcc_len_eq (token : List Nat) (off : Nat) (bt : Int) :
    ∀ r ∈ genCaseCombinations token off bt, r.length = token.length :=
  gcc_len token.length token off bt (by omega)

theorem regexAccum_len (s : List Nat) (maxTok : Nat) :
    ∀ (fuel i : Nat) (acc : List Nat), acc.length ≤ maxTok →
    (regexAccum s maxTok fuel i acc).length ≤ maxTok := by
  intro fuel
  induction fuel with
  | zero => intro i acc h; exact h
  | succ fuel ih =>
    intro i acc h
    rw [regexAccum]
    dsimp only
    split_ifs
    all_goals
      first
        | exact h
        | (apply ih
           simp only [List.length_append, List.length_cons, List.length_nil]
           omega)

theorem hexLiteral_candLen (maxTok : Nat) (st : HexSt) (b : Nat)
    (h : st.candLen ≤ maxTok) : (hexLiteral maxTok st b).1.candLen ≤ maxTok := by
  rw [hexLiteral]
  split
  · exact Nat.min_le_right _ _
  · exact h

set_option maxHeartbeats 1000000 in
theorem hexLoop_candLen (s : List Nat) (maxTok : Nat) :
    ∀ (m : List MaskElem) (st : HexSt), st.candLen ≤ maxTok →
    (hexLoop s maxTok m st).candLen ≤ maxTok := by
  intro m
  induction m with
  | nil => intro st h; exact h
  | cons e rest ih =>
    intro st h
    rw [hexLoop]
    dsimp only
    generalize hst1 : (if st.tokenLength = 0 then
      { st with last := List.replicate maxTok (s.getD st.stringPos 0) } else st) = st1
    have h1 : st1.candLen ≤ maxTok := by rw [← hst1]; split <;> exact h
    generalize hst2 : (if e = MaskElem.maskOr then { st1 with insideOr := true } else st1) = st2
    have h2 : st2.candLen ≤ maxTok := by rw [← hst2]; split <;> exact h1
    generalize hst3 : (if e = MaskElem.maskOrEnd then { st2 with insideOr := false } else st2) = st3
    have h3 : st3.candLen ≤ maxTok := by rw [← hst3]; split <;> exact h2
    generalize hstep : (if e = MaskElem.literal ∧ st3.insideOr = false then
      hexLiteral maxTok st3 (s.getD st3.stringPos 0)
      else ({ st3 with tokenLength := 0 }, false)) = step
    have hstepc : step.1.candLen ≤ maxTok := by
      rw [← hstep]
      split
      · exact hexLiteral_candLen maxTok _ _ h3
      · exact h3
    generalize hst4 : (if e = MaskElem.literal ∨ e = MaskElem.wildcard then
      { step.1 with
          stringPos := step.1.stringPos + 1,
          orLen := if step.1.insideOr then step.1.orLen + 1 else step.1.orLen,
          backtrack := if step.1.insideOr then step.1.backtrack else step.1.backtrack + 1 }
      else step.1) = st4
    have h4 : st4.candLen ≤ maxTok := by rw [← hst4]; split <;> exact hstepc
    split
    · exact hstepc
    · cases e
      all_goals dsimp only
      all_goals repeat' split
      all_goals
        first
          | exact h4
          | exact ih _ h4

theorem flatMap_pair_length : ∀ l : List Nat, (l.flatMap (fun b => [b, 0])).length = 2 * l.length := by
  intro l
  induction l with
  | nil => rfl
  | cons x xs ih =>
    simp only [List.flatMap_cons, List.length_append, List.length_cons, List.length_nil, ih]
    omega

theorem wideBytes_length (l : List Nat) (n : Nat) :
    (wideBytes l n).length = min n (2 * l.length) := by
  unfold wideBytes
  rw [List.length_take, flatMap_pair_length]

theorem genTokens_len_le (s : YrString) :
    ∀ r ∈ genTokens s MAX_TOKEN, r.length ≤ MAX_TOKEN := by
  intro r hr
  unfold genTokens at hr
  by_cases hh : s.hex = true
  · rw [if_pos hh] at hr
    simp only [List.mem_singleton] at hr
    rw [hr]
    exact hexLoop_candLen s.str MAX_TOKEN s.mask (hexInit MAX_TOKEN) (by decide)
  · rw [if_neg hh] at hr
    by_cases hre : s.regexp = true
    · rw [if_pos hre] at hr
      unfold genRegexpTokens at hr
      dsimp only at hr
      by_cases htl : 0 < (regexAccum s.str MAX_TOKEN s.str.length
          (if s.str.getD 0 0 = 94 then 1 else 0) []).length
      · rw [if_pos htl] at hr
        have hlen := regexAccum_len s.str MAX_TOKEN s.str.length
          (if s.str.getD 0 0 = 94 then 1 else 0) [] (by simp)
        rcases List.mem_cons.mp hr with h1 | h1
        · rw [h1]; exact hlen
        · by_cases hnc : s.nocase = true
          · rw [if_pos hnc] at h1
            rw [gcc_len_eq _ 0 0 r h1]
            exact hlen
          · rw [if_neg hnc] at h1; simp at h1
      · rw [if_neg htl] at hr
        rcases List.mem_map.mp hr with ⟨b, _, hb⟩
        rw [← hb]
        simp [MAX_TOKEN]
    · rw [if_neg hre] at hr
      rcases List.mem_append.mp hr with h1 | h1
      · by_cases ha : s.ascii = true
        · rw [if_pos ha] at h1
          dsimp only at h1
          rcases List.mem_cons.mp h1 with h2 | h2
          · rw [h2]; exact Nat.min_le_right _ _
          · by_cases hnc : s.nocase = true
            · rw [if_pos hnc] at h2
              rw [gcc_len_eq _ 0 0 r h2]
              simp only [List.length_take]
              omega
            · rw [if_neg hnc] at h2; simp at h2
        · rw [if_neg ha] at h1; simp at h1
      · by_cases hw : s.wide = true
        · rw [if_pos hw] at h1
          dsimp only at h1
          rcases List.mem_cons.mp h1 with h2 | h2
          · rw [h2]; exact Nat.min_le_right _ _
          · by_cases hnc : s.nocase = true
            · rw [if_pos hnc] at h2
              rw [gcc_len_eq _ 0 0 r h2, wideBytes_length]
              omega
            · rw [if_neg hnc] at h2; simp at h2
        · rw [if_neg hw] at h1; simp at h1

theorem genTokens_zero_or_pos (s : YrString) :
    (∀ r ∈ genTokens s MAX_TOKEN, r.length = 0) ∨
    (∀ r ∈ genTokens s MAX_TOKEN, 0 < r.length) := by
  by_cases hall : ∀ r ∈ genTokens s MAX_TOKEN, 0 < r.length
  · exact Or.inr hall
  · left
    intro r hr
    unfold genTokens at hr hall
    by_cases hh : s.hex = true
    · rw [if_pos hh] at hr hall
      simp only [List.mem_singleton] at hr
      push_neg at hall
      rcases hall with ⟨r2, hr2, h2⟩
      simp only [List.mem_singleton] at hr2
      rw [hr, ← hr2]
      omega
    · rw [if_neg hh] at hr hall
      by_cases hre : s.regexp = true
      · rw [if_pos hre] at hr hall
        unfold genRegexpTokens at hr hall
        dsimp only at hr hall
        by_cases htl : 0 < (regexAccum s.str MAX_TOKEN s.str.length
            (if s.str.getD 0 0 = 94 then 1 else 0) []).length
        · exfalso
          apply hall
          rw [if_pos htl]
          intro r2 h2
          rcases List.mem_cons.mp h2 with h3 | h3
          · rw [h3]; exact htl
          · by_cases hnc : s.nocase = true
            · rw [if_pos hnc] at h3
              rw [gcc_len_eq _ 0 0 r2 h3]
              exact htl
            · rw [if_neg hnc] at h3; simp at h3
        · exfalso
          apply hall
          rw [if_neg htl]
          intro r2 h2
          rcases List.mem_map.mp h2 with ⟨b, _, hb⟩
          rw [← hb]
          simp
      · rw [if_neg hre] at hr hall
        by_cases hs : s.str.length = 0
        · have hstr : s.str = [] := List.length_eq_zero.mp hs
          rcases List.mem_append.mp hr with h1 | h1
          · by_cases ha : s.ascii = true
            · rw [if_pos ha] at h1
              dsimp only at h1
              rcases List.mem_cons.mp h1 with h2 | h2
              · rw [h2]; simp [hstr]
              · by_cases hnc : s.nocase = true
                · rw [if_pos hnc] at h2
                  rw [gcc_len_eq _ 0 0 r h2]
                  simp [hstr]
                · rw [if_neg hnc] at h2; simp at h2
            · rw [if_neg ha] at h1; simp at h1
          · by_cases hw : s.wide = true
            · rw [if_pos hw] at h1
              dsimp only at h1
              rcases List.mem_cons.mp h1 with h2 | h2
              · rw [h2]; simp [hstr]
              · by_cases hnc : s.nocase = true
                · rw [if_pos hnc] at h2
                  rw [gcc_len_eq _ 0 0 r h2, wideBytes_length]
                  simp [hstr]
                · rw [if_neg hnc] at h2; simp at h2
            · rw [if_neg hw] at h1; simp at h1
        · exfalso
          apply hall
          intro r2 h2
          rcases List.mem_append.mp h2 with h1 | h1
          · by_cases ha : s.ascii = true
            · rw [if_pos ha] at h1
              dsimp only at h1
              rcases List.mem_cons.mp h1 with h3 | h3
              · rw [h3]
                show 0 < min s.str.length MAX_TOKEN
                have : MAX_TOKEN = 4 := rfl
                omega
              · by_cases hnc : s.nocase = true
                · rw [if_pos hnc] at h3
                  rw [gcc_len_eq _ 0 0 r2 h3]
                  simp only [List.length_take]
                  have : MAX_TOKEN = 4 := rfl
                  omega
                · rw [if_neg hnc] at h3; simp at h3
            · rw [if_neg ha] at h1; simp at h1
          · by_cases hw : s.wide = true
            · rw [if_pos hw] at h1
              dsimp only at h1
              rcases List.mem_cons.mp h1 with h3 | h3
              · rw [h3]
                show 0 < min (2 * s.str.length) MAX_TOKEN
                have : MAX_TOKEN = 4 := rfl
                omega
              · by_cases hnc : s.nocase = true
                · rw [if_pos hnc] at h3
                  rw [gcc_len_eq _ 0 0 r2 h3, wideBytes_length]
                  have : MAX_TOKEN = 4 := rfl
                  omega
                · rw [if_neg hnc] at h3; simp at h3
            · rw [if_neg hw] at h1; simp at h1

theorem foldl_min_le_init : ∀ (l : List TokenRec) (m : Nat),
    l.foldl (fun m r => min m r.length) m ≤ m := by
  intro l
  induction l with
  | nil => intro m; exact le_refl m
  | cons x rest ih =>
    intro m
    exact le_trans (ih (min m x.length)) (Nat.min_le_left _ _)

theorem foldl_min_le_mem : ∀ (l : List TokenRec) (m : Nat) (r : TokenRec), r ∈ l →
    l.foldl (fun m r => min m r.length) m ≤ r.length := by
  intro l
  induction l with
  | nil => intro m r hr; simp at hr
  | cons x rest ih =>
    intro m r hr
    rcases List.mem_cons.mp hr with h1 | h1
    · subst h1
      exact le_trans (foldl_min_le_init rest _) (Nat.min_le_right _ _)
    · exact ih _ r h1

theorem foldl_min_pos : ∀ (l : List TokenRec) (m : Nat), 0 < m → (∀ r ∈ l, 0 < r.length) →
    0 < l.foldl (fun m r => min m r.length) m := by
  intro l
  induction l with
  | nil => intro m hm _; exact hm
  | cons x rest ih =>
    intro m hm hpos
    exact ih _ (Nat.lt_min.mpr ⟨hm, hpos x (List.mem_cons_self _ _)⟩)
      (fun r hr => hpos r (List.mem_cons_of_mem _ hr))

theorem foldl_min_attained : ∀ (l : List TokenRec) (m : Nat),
    l.foldl (fun m r => min m r.length) m = m ∨
    ∃ r ∈ l, l.foldl (fun m r => min m r.length) m = r.length := by
  intro l
  induction l with
  | nil => intro m; exact Or.inl rfl
  | cons x rest ih =>
    intro m
    rcases ih (min m x.length) with h1 | ⟨r, hr, h2⟩
    · rcases min_choice m x.length with hm | hm
      · left
        simp only [List.foldl_cons]
        rw [h1, hm]
      · right
        refine ⟨x, List.mem_cons_self _ _, ?_⟩
        simp only [List.foldl_cons]
        rw [h1, hm]
    · right
      exact ⟨r, List.mem_cons_of_mem _ hr, by simp only [List.foldl_cons]; exact h2⟩

theorem insertLoop_min : ∀ (recs : List TokenRec) (pid : Nat) (a : Automaton) (m : Nat),
    (∀ r ∈ recs, 0 < r.length) →
    (insertLoop pid (a, m) recs).2 = recs.foldl (fun m r => min m r.length) m := by
  intro recs
  induction recs with
  | nil => intro pid a m _; rfl
  | cons r rest ih =>
    intro pid a m hpos
    have hr : 0 < r.length := hpos r (List.mem_cons_self _ _)
    rw [insertLoop, if_neg (by omega)]
    rw [ih pid _ _ (fun r2 h2 => hpos r2 (List.mem_cons_of_mem _ h2))]
    simp only [List.foldl_cons]

/-- C5: `yr_ac_add_string` reports `min_token_length = 0` exactly when the
generator emitted no (nonzero-length) token, in which case the pattern is
attached to the root state with backtrack 0; otherwise the reported value is
the minimum of the emitted token lengths and is at most `MAX_TOKEN`. -/
theorem add_string_min_spec (a : Automaton) (pid : Nat) (s : YrString)
    (hroot : a.root < a.states.length) :
    (((addString a pid s).2 = 0) ↔ (∀ r ∈ genTokens s MAX_TOKEN, r.length = 0)) ∧
    ((addString a pid s).2 = 0 →
      (getState (addString a pid s).1 a.root).matchChain =
        AcMatch.mk pid 0 :: (getState a a.root).matchChain) ∧
    ((addString a pid s).2 ≠ 0 →
      (∃ r ∈ genTokens s MAX_TOKEN, (addString a pid s).2 = r.length) ∧
      (∀ r ∈ genTokens s MAX_TOKEN, (addString a pid s).2 ≤ r.length) ∧
      (addString a pid s).2 ≤ MAX_TOKEN) := by
  cases hrecs : genTokens s MAX_TOKEN with
  | nil =>
    have hres : addString a pid s = (attachRoot a pid, 0) := by
      unfold addString
      rw [hrecs]
    rw [hres]
    dsimp only
    refine ⟨by simp, fun _ => ?_, fun hne => absurd rfl hne⟩
    unfold attachRoot
    rw [getState_modify_self a a.root _ hroot]
  | cons r rest =>
    by_cases hz : r.length = 0
    · have hall : ∀ r2 ∈ r :: rest, r2.length = 0 := by
        rcases genTokens_zero_or_pos s with h1 | h1 <;> rw [hrecs] at h1
        · exact h1
        · exfalso
          have := h1 r (List.mem_cons_self _ _)
          omega
      have hres : addString a pid s = (attachRoot a pid, 0) := by
        unfold addString
        rw [hrecs]
        dsimp only
        rw [if_pos hz]
      rw [hres]
      dsimp only
      refine ⟨⟨fun _ => hall, fun _ => rfl⟩, fun _ => ?_, fun hne => absurd rfl hne⟩
      unfold attachRoot
      rw [getState_modify_self a a.root _ hroot]
    · have hpos : ∀ r2 ∈ r :: rest, 0 < r2.length := by
        rcases genTokens_zero_or_pos s with h1 | h1 <;> rw [hrecs] at h1
        · exfalso
          exact hz (h1 r (List.mem_cons_self _ _))
        · exact h1
      have hres : addString a pid s = insertLoop pid (a, MAX_TOKEN) (r :: rest) := by
        unfold addString
        rw [hrecs]
        dsimp only
        rw [if_neg hz]
      have hmin : (addString a pid s).2 =
          (r :: rest).foldl (fun m r => min m r.length) MAX_TOKEN := by
        rw [hres]
        exact insertLoop_min (r :: rest) pid a MAX_TOKEN hpos
      have hposm : 0 < (addString a pid s).2 := by
        rw [hmin]
        exact foldl_min_pos (r :: rest) MAX_TOKEN (by decide) hpos
      refine ⟨⟨fun h0 => absurd h0 (by omega), fun hall => ?_⟩,
        fun h0 => absurd h0 (by omega), fun _ => ⟨?_, ?_, ?_⟩⟩
      · exfalso
        have h1 := hall r (List.mem_cons_self _ _)
        have h2 := hpos r (List.mem_cons_self _ _)
        omega
      · rcases foldl_min_attained (r :: rest) MAX_TOKEN with h1 | ⟨r2, hr2, h2⟩
        · refine ⟨r, List.mem_cons_self _ _, ?_⟩
          have hle4 : r.length ≤ MAX_TOKEN :=
            genTokens_len_le s r (by rw [hrecs]; exact List.mem_cons_self _ _)
          have hlem : (addString a pid s).2 ≤ r.length := by
            rw [hmin]
            exact foldl_min_le_mem (r :: rest) MAX_TOKEN r (List.mem_cons_self _ _)
          rw [hmin, h1]
          rw [hmin, h1] at hlem
          omega
        · exact ⟨r2, hr2, by rw [hmin]; exact h2⟩
      · intro r2 h2
        rw [hmin]
        exact foldl_min_le_mem (r :: rest) MAX_TOKEN r2 h2
      · rw [hmin]
        exact foldl_min_le_init (r :: rest) MAX_TOKEN

theorem add_string_min_spec_witness :
    (addString createAutomaton 3 (YrString.mk false true false false false [46] [] [])).2 = 0 ∧
    (getState (addString createAutomaton 3
        (YrString.mk false true false false false [46] [] [])).1
        createAutomaton.root).matchChain =
      AcMatch.mk 3 0 :: (getState createAutomaton createAutomaton.root).matchChain := by
  refine ⟨by decide, ?_⟩
  exact (add_string_min_spec createAutomaton 3
    (YrString.mk false true false false false [46] [] []) (by decide)).2.1 (by decide)

theorem listTakeAll {α : Type} : ∀ (l : List α) (n : Nat), l.length ≤ n → l.take n = l := by
  intro l
  induction l with
  | nil => intro n _; simp
  | cons a t ih =>
    intro n h
    cases n with
    | zero => simp at h
    | succ m => simp only [List.take_succ_cons]; rw [ih m (by simpa using h)]

theorem listDropNil {α : Type} : ∀ (l : List α) (n : Nat), l.length ≤ n → l.drop n = [] := by
  intro l
  induction l with
  | nil => intro n _; simp
  | cons a t ih =>
    intro n h
    cases n with
    | zero => simp at h
    | succ m => simp only [List.drop_succ_cons]; exact ih m (by simpa using h)

theorem listTakeSuccGetD {α : Type} (d : α) :
    ∀ (l : List α) (i : Nat), i < l.length → l.take (i + 1) = l.take i ++ [l.getD i d] := by
  intro l
  induction l with
  | nil => intro i h; simp at h
  | cons a t ih =>
    intro i h
    cases i with
    | zero => simp
    | succ j =>
      have h2 := ih j (by simpa using h)
      simp only [List.take_succ_cons, List.getD_cons_succ, h2, List.cons_append]

theorem listSetTakeSucc {α : Type} (v : α) :
    ∀ (l : List α) (i : Nat), i < l.length → (l.set i v).take (i + 1) = l.take i ++ [v] := by
  intro l
  induction l with
  | nil => intro i h; simp at h
  | cons a t ih =>
    intro i h
    cases i with
    | zero => simp
    | succ j =>
      have h2 := ih j (by simpa using h)
      simp only [List.set_cons_succ, List.take_succ_cons, h2, List.cons_append]

theorem listSetDropSucc {α : Type} (v : α) :
    ∀ (l : List α) (i : Nat), (l.set i v).drop (i + 1) = l.drop (i + 1) := by
  intro l
  induction l with
  | nil => intro i; simp
  | cons a t ih =>
    intro i
    cases i with
    | zero => simp
    | succ j =>
      simp only [List.set_cons_succ, List.drop_succ_cons]
      exact ih j

theorem listDropGetD {α : Type} (d : α) :
    ∀ (l : List α) (i : Nat), i < l.length → l.drop i = l.getD i d :: l.drop (i + 1) := by
  intro l
  induction l with
  | nil => intro i h; simp at h
  | cons a t ih =>
    intro i h
    cases i with
    | zero => simp
    | succ j =>
      have h2 := ih j (by simpa using h)
      simp only [List.drop_succ_cons, List.getD_cons_succ]
      exact h2

theorem listSetFull {α : Type} (v : α) (l : List α) (i : Nat) (h : l.length = i + 1) :
    l.set i v = l.take i ++ [v] := by
  have h1 : l.set i v = (l.set i v).take (i + 1) :=
    (listTakeAll _ _ (by simp [List.length_set]; omega)).symm
  rw [h1, listSetTakeSucc v l i (by omega)]

theorem consAppendFun (p : List Nat) (x : Nat) :
    (fun w : List Nat => p ++ [x] ++ w) = (fun w : List Nat => p ++ x :: w) := by
  funext w
  simp

theorem gcc_bt : ∀ (fuel : Nat) (token : List Nat) (off : Nat) (bt : Int),
    token.length - off ≤ fuel →
    ∀ r ∈ genCaseCombinations token off bt, r.backtrack = bt := by
  intro fuel
  induction fuel with
  | zero =>
    intro token off bt hle r hr
    unfold genCaseCombinations at hr
    dsimp only at hr
    rw [dif_neg (by omega), dif_neg (by omega)] at hr
    by_cases hl : isLetter (token.getD off 0) = true
    · rw [if_pos hl] at hr
      simp only [List.nil_append, List.mem_singleton] at hr
      rw [hr]
    · rw [if_neg hl] at hr
      simp at hr
  | succ fuel ih =>
    intro token off bt hle r hr
    unfold genCaseCombinations at hr
    dsimp only at hr
    by_cases hoff : off + 1 < token.length
    · rw [dif_pos hoff, dif_pos hoff] at hr
      by_cases hl : isLetter (token.getD off 0) = true
      · rw [if_pos hl] at hr
        simp only [List.mem_append, List.mem_cons] at hr
        rcases hr with h1 | h1 | h1
        · exact ih token (off + 1) bt (by omega) r h1
        · rw [h1]
        · exact ih (token.set off (toggleCase (token.getD off 0))) (off + 1) bt
            (by simp only [List.length_set]; omega) r h1
      · rw [if_neg hl] at hr
        exact ih token (off + 1) bt (by omega) r hr
    · rw [dif_neg hoff, dif_neg hoff] at hr
      by_cases hl : isLetter (token.getD off 0) = true
      · rw [if_pos hl] at hr
        simp only [List.nil_append, List.mem_singleton] at hr
        rw [hr]
      · rw [if_neg hl] at hr
        simp at hr

theorem gcc_variants_out (t : List Nat) (off : Nat) (bt : Int) (hle : t.length ≤ off) :
    t :: (genCaseCombinations t off bt).map (fun r => r.bytes) =
      (variantsOf (t.drop off)).map (fun w => t.take off ++ w) := by
  have hgcc : genCaseCombinations t off bt = [] := by
    unfold genCaseCombinations
    dsimp only
    rw [dif_neg (by omega), dif_neg (by omega), listGetDGe 0 t off hle,
      if_neg (by decide)]
  rw [hgcc, listDropNil t off hle, listTakeAll t off hle]
  simp [variantsOf]

theorem gcc_variants : ∀ (fuel : Nat) (t : List Nat) (off : Nat) (bt : Int),
    t.length - off ≤ fuel →
    t :: (genCaseCombinations t off bt).map (fun r => r.bytes) =
      (variantsOf (t.drop off)).map (fun w => t.take off ++ w) := by
  intro fuel
  induction fuel with
  | zero => intro t off bt hle; exact gcc_variants_out t off bt (by omega)
  | succ fuel ih =>
    intro t off bt hle
    by_cases hlen : t.length ≤ off
    · exact gcc_variants_out t off bt hlen
    · have hofflt : off < t.length := by omega
      unfold genCaseCombinations
      dsimp only
      rw [listDropGetD 0 t off hofflt]
      by_cases hoff : off + 1 < t.length
      · rw [dif_pos hoff, dif_pos hoff]
        by_cases hl : isLetter (t.getD off 0) = true
        · rw [if_pos hl]
          rw [show variantsOf (t.getD off 0 :: t.drop (off + 1)) =
              (variantsOf (t.drop (off + 1))).map (fun w => t.getD off 0 :: w) ++
                (variantsOf (t.drop (off + 1))).map
                  (fun w => toggleCase (t.getD off 0) :: w) by
            rw [variantsOf, if_pos hl]]
          simp only [List.map_append, List.map_cons, List.map_map]
          have ih1 := ih t (off + 1) bt (by omega)
          have ih2 := ih (t.set off (toggleCase (t.getD off 0))) (off + 1) bt
            (by simp only [List.length_set]; omega)
          rw [listTakeSuccGetD 0 t off hofflt] at ih1
          rw [listSetDropSucc, listSetTakeSucc _ t off hofflt] at ih2
          rw [consAppendFun] at ih1 ih2
          have hc1 : ((fun w : List Nat => t.take off ++ w) ∘
              (fun w => t.getD off 0 :: w)) =
              (fun w => t.take off ++ t.getD off 0 :: w) := rfl
          have hc2 : ((fun w : List Nat => t.take off ++ w) ∘
              (fun w => toggleCase (t.getD off 0) :: w)) =
              (fun w => t.take off ++ toggleCase (t.getD off 0) :: w) := rfl
          rw [hc1, hc2, ← ih1, ← ih2]
          simp
        · rw [if_neg hl]
          rw [show variantsOf (t.getD off 0 :: t.drop (off + 1)) =
              (variantsOf (t.drop (off + 1))).map (fun w => t.getD off 0 :: w) by
            rw [variantsOf, if_neg hl]]
          rw [List.map_map]
          have ih1 := ih t (off + 1) bt (by omega)
          rw [listTakeSuccGetD 0 t off hofflt] at ih1
          rw [consAppendFun] at ih1
          have hc1 : ((fun w : List Nat => t.take off ++ w) ∘
              (fun w => t.getD off 0 :: w)) =
              (fun w => t.take off ++ t.getD off 0 :: w) := rfl
          rw [hc1, ← ih1]
      · have hfull : t.length = off + 1 := by omega
        rw [dif_neg hoff, dif_neg hoff]
        have hdrop2 : t.drop (off + 1) = [] := listDropNil t (off + 1) (by omega)
        rw [hdrop2]
        by_cases hl : isLetter (t.getD off 0) = true
        · rw [if_pos hl]
          rw [show variantsOf [t.getD off 0] =
              [[t.getD off 0], [toggleCase (t.getD off 0)]] by
            rw [variantsOf, if_pos hl]
            simp [variantsOf]]
          simp only [List.nil_append, List.map_cons, List.map_nil]
          rw [← listTakeSuccGetD 0 t off hofflt, listTakeAll t (off + 1) (by omega),
            ← listSetFull (toggleCase (t.getD off 0)) t off hfull]
        · rw [if_neg hl]
          rw [show variantsOf [t.getD off 0] = [[t.getD off 0]] by
            rw [variantsOf, if_neg hl]
            simp [variantsOf]]
          simp only [List.map_cons, List.map_nil]
          rw [← listTakeSuccGetD 0 t off hofflt, listTakeAll t (off + 1) (by omega)]

theorem variantsOf_length : ∀ t : List Nat, (variantsOf t).length = 2 ^ letterCount t := by
  intro t
  induction t with
  | nil => rfl
  | cons c rest ih =>
    rw [variantsOf]
    unfold letterCount
    rw [List.countP_cons]
    by_cases hl : isLetter c = true
    · rw [if_pos hl, if_pos hl]
      simp only [List.length_append, List.length_map, ih]
      unfold letterCount
      rw [pow_succ]
      omega
    · rw [if_neg hl, if_neg hl]
      simp only [List.length_map, ih]
      unfold letterCount
      simp

theorem toggle_ne (c : Nat) (h : isLetter c = true) : toggleCase c ≠ c := by
  unfold isLetter at h
  simp only [Bool.or_eq_true, Bool.and_eq_true, decide_eq_true_eq] at h
  unfold toggleCase
  split
  · rename_i h2
    simp only [Bool.and_eq_true, decide_eq_true_eq] at h2
    omega
  · omega

theorem variantsOf_nodup : ∀ t : List Nat, (variantsOf t).Nodup := by
  intro t
  induction t with
  | nil => simp [variantsOf]
  | cons c rest ih =>
    rw [variantsOf]
    by_cases hl : isLetter c = true
    · rw [if_pos hl]
      refine List.Nodup.append (ih.map ?_) (ih.map ?_) ?_
      · intro x y hxy
        injection hxy
      · intro x y hxy
        injection hxy
      · intro x hx hy
        rcases List.mem_map.mp hx with ⟨w1, _, h1⟩
        rcases List.mem_map.mp hy with ⟨w2, _, h2⟩
        rw [← h1] at h2
        injection h2 with hc _
        exact toggle_ne c hl hc
    · rw [if_neg hl]
      exact ih.map (fun x y hxy => by injection hxy)

theorem variantsOf_mem : ∀ (t v : List Nat), v ∈ variantsOf t ↔ IsVar t v := by
  intro t
  induction t with
  | nil =>
    intro v
    cases v with
    | nil => exact iff_of_true (by simp [variantsOf]) trivial
    | cons b v1 =>
      refine iff_of_false ?_ (fun h => h)
      intro hmem
      simp [variantsOf] at hmem
  | cons c rest ih =>
    intro v
    rw [variantsOf]
    by_cases hl : isLetter c = true
    · rw [if_pos hl]
      cases v with
      | nil =>
        refine iff_of_false ?_ (fun h => h)
        intro hmem
        rcases List.mem_append.mp hmem with h1 | h1 <;>
          · rcases List.mem_map.mp h1 with ⟨w, _, heq⟩
            simp at heq
      | cons b v1 =>
        constructor
        · intro hmem
          rcases List.mem_append.mp hmem with h1 | h1
          · rcases List.mem_map.mp h1 with ⟨w, hw, heq⟩
            injection heq with hb hv
            exact ⟨Or.inl hb.symm, hv ▸ (ih w).mp hw⟩
          · rcases List.mem_map.mp h1 with ⟨w, hw, heq⟩
            injection heq with hb hv
            exact ⟨Or.inr ⟨hl, hb.symm⟩, hv ▸ (ih w).mp hw⟩
        · intro hv
          have hv' : (b = c ∨ (isLetter c = true ∧ b = toggleCase c)) ∧ IsVar rest v1 := hv
          rcases hv' with ⟨hb | ⟨_, hb⟩, hrest⟩
          · exact List.mem_append.mpr (Or.inl (List.mem_map.mpr
              ⟨v1, (ih v1).mpr hrest, by rw [hb]⟩))
          · exact List.mem_append.mpr (Or.inr (List.mem_map.mpr
              ⟨v1, (ih v1).mpr hrest, by rw [hb]⟩))
    · rw [if_neg hl]
      cases v with
      | nil =>
        refine iff_of_false ?_ (fun h => h)
        intro hmem
        rcases List.mem_map.mp hmem with ⟨w, _, heq⟩
        simp at heq
      | cons b v1 =>
        constructor
        · intro hmem
          rcases List.mem_map.mp hmem with ⟨w, hw, heq⟩
          injection heq with hb hv
          exact ⟨Or.inl hb.symm, hv ▸ (ih w).mp hw⟩
        · intro hv
          have hv' : (b = c ∨ (isLetter c = true ∧ b = toggleCase c)) ∧ IsVar rest v1 := hv
          rcases hv' with ⟨hb | ⟨hlet, _⟩, hrest⟩
          · exact List.mem_map.mpr ⟨v1, (ih v1).mpr hrest, by rw [hb]⟩
          · exact absurd hlet hl

/-- C7: for an ASCII case-insensitive (non-wide, non-hex, non-regexp) string,
the generator emits exactly `2 ^ k` records, `k` the number of ASCII letters
among the first `min (length, MAX_TOKEN)` bytes: their byte lists are exactly
the case variants of the leading token (each exactly once, the original token
first), and every record has the token's length and backtrack 0. -/
theorem case_combination_spec (s : YrString)
    (hh : s.hex = false) (hre : s.regexp = false) (ha : s.ascii = true)
    (hw : s.wide = false) (hn : s.nocase = true) :
    (genTokens s MAX_TOKEN).length =
      2 ^ letterCount (s.str.take (min s.str.length MAX_TOKEN)) ∧
    ((genTokens s MAX_TOKEN).map (fun r => r.bytes)).Nodup ∧
    (∀ v, v ∈ (genTokens s MAX_TOKEN).map (fun r => r.bytes) ↔
      IsVar (s.str.take (min s.str.length MAX_TOKEN)) v) ∧
    ((genTokens s MAX_TOKEN).map (fun r => r.bytes)).head? =
      some (s.str.take (min s.str.length MAX_TOKEN)) ∧
    (∀ r ∈ genTokens s MAX_TOKEN,
      r.length = (s.str.take (min s.str.length MAX_TOKEN)).length ∧
      r.backtrack = 0) := by
  have hrecs : genTokens s MAX_TOKEN =
      TokenRec.mk (min s.str.length MAX_TOKEN) 0
        (s.str.take (min s.str.length MAX_TOKEN)) ::
        genCaseCombinations (s.str.take (min s.str.length MAX_TOKEN)) 0 0 := by
    unfold genTokens
    rw [hh, hre, ha, hw, hn]
    simp
  have hbytes : (genTokens s MAX_TOKEN).map (fun r => r.bytes) =
      variantsOf (s.str.take (min s.str.length MAX_TOKEN)) := by
    rw [hrecs, List.map_cons]
    dsimp only
    have h := gcc_variants (s.str.take (min s.str.length MAX_TOKEN)).length
      (s.str.take (min s.str.length MAX_TOKEN)) 0 0 (by omega)
    simp only [List.drop_zero, List.take_zero, List.nil_append] at h
    rw [h]
    simp
  refine ⟨?_, ?_, ?_, ?_, ?_⟩
  · have h := congrArg List.length hbytes
    rw [List.length_map, variantsOf_length] at h
    exact h
  · rw [hbytes]
    exact variantsOf_nodup _
  · intro v
    rw [hbytes]
    exact variantsOf_mem _ v
  · rw [hrecs]
    rfl
  · intro r hr
    rw [hrecs] at hr
    rcases List.mem_cons.mp hr with h1 | h1
    · rw [h1]
      refine ⟨?_, rfl⟩
      show min s.str.length MAX_TOKEN = (s.str.take (min s.str.length MAX_TOKEN)).length
      simp only [List.length_take]
      omega
    · exact ⟨gcc_len_eq _ 0 0 r h1,
        gcc_bt (s.str.take (min s.str.length MAX_TOKEN)).length _ 0 0 (by omega) r h1⟩

theorem case_combination_spec_witness :
    (genTokens hiStr MAX_TOKEN).length =
      2 ^ letterCount (hiStr.str.take (min hiStr.str.length MAX_TOKEN)) ∧
    ([104, 105] ∈ (genTokens hiStr MAX_TOKEN).map (fun r => r.bytes)) := by
  have h := case_combination_spec hiStr rfl rfl rfl rfl rfl
  exact ⟨h.1, (h.2.2.1 [104, 105]).mpr (by decide)⟩

set_option maxHeartbeats 8000000 in
/-- C1: on the automaton for the patterns {she, he, his, hers}, the failure
link of the state reached by "she" is never the state reached by "he",
whatever value the uninitialised probe byte `i` of
`yr_ac_create_failure_links` happens to hold (all 256 byte values are
covered), although the corrected probe (using the transition byte of the
child being linked) does produce it, as the claim requires. -/
theorem failure_link_uninit_bug :
    stateAt demoAuto [115, 104, 101] = some 3 ∧
    stateAt demoAuto [104, 101] = some 5 ∧
    (∀ iv : Fin 256,
      (getState (createFailureLinksBuggy iv.val demoAuto).1 3).failure ≠ some 5) ∧
    (getState (createFailureLinksFixed demoAuto).1 3).failure = some 5 := by
  decide
